import Mathlib

/-!
Verification of the Verilator DFG core (`src/V3Dfg.h`) against its
natural-language specification.

The development shallowly embeds the data structures and operations of the
data-flow-graph core: the per-vertex scratch-storage ("user data") facility
with its generation counters, the variadic operand buffer, the inlining
policy, the supported-data-type predicates, graph membership bookkeeping,
structural equality and hashing over operand trees, and the graph-level
algorithms (topological sort, cyclic-component extraction).  Machine
integers (`uint32_t`, `size_t`) are modelled as `Nat` with explicit
`% 2 ^ 32` where overflow is observable.  Fatal assertions (`UASSERT`)
are modelled by `Option`-valued operations returning `none`.
-/

namespace V3Dfg

/-! ### Scratch-storage (user data) facility

Translated from `DfgGraph` members `m_userCurrent` / `m_userCnt`,
`DfgGraph::userDataInUse`, `DfgGraph::UserDataInUse::~UserDataInUse`,
and `DfgVertex::user<T>` / `DfgVertex::setUser<T>` in `src/V3Dfg.h`.
-/

/-- Width bound of the `uint32_t` generation counters. -/
def u32 : Nat := 2 ^ 32

/-- Graph-level scratch-storage state: `m_userCurrent` (generation currently
in use, 0 when no session is live) and `m_userCnt` (generation counter). -/
structure UGraph where
  userCurrent : Nat
  userCnt : Nat
deriving DecidableEq, Repr

/-- Per-vertex scratch-storage state: the stored generation tag `m_userCnt`
and the slot contents `m_userDataStorage`. -/
structure UVtx (α : Type) where
  userCnt : Nat
  slot : α
deriving DecidableEq, Repr

/-- Translation of `DfgGraph::userDataInUse`: fatal (modelled as `none`) when
a session is already live (`m_userCurrent` nonzero) or when incrementing the
`uint32_t` counter overflows to zero; otherwise installs the incremented
counter as the current generation. -/
def userDataInUse (g : UGraph) : Option UGraph :=
  if g.userCurrent ≠ 0 then none
  else
    let cnt := (g.userCnt + 1) % u32
    if cnt = 0 then none
    else some { userCurrent := cnt, userCnt := cnt }

/-- Translation of `DfgGraph::UserDataInUse::~UserDataInUse`: releasing the
guard clears `m_userCurrent`; nothing else is touched. -/
def releaseUser (g : UGraph) : UGraph :=
  { g with userCurrent := 0 }

/-- Translation of `DfgVertex::user<T>`: if the stored tag differs from the
graph's current generation, re-tag the slot and default-initialize it
(placement `new (storagep) T{}`); then return the slot contents.  The
result is the updated vertex state paired with the returned value. -/
def user {α : Type} [Inhabited α] (g : UGraph) (v : UVtx α) : UVtx α × α :=
  if v.userCnt ≠ g.userCurrent then
    (⟨g.userCurrent, default⟩, default)
  else
    (v, v.slot)

/-- Translation of `DfgVertex::setUser<T>`: tags the vertex with the current
generation and stores the value. -/
def setUser {α : Type} (g : UGraph) (v : UVtx α) (x : α) : UVtx α :=
  { userCnt := g.userCurrent, slot := x }

/-! ### Variadic operand buffer

Translated from `DfgVertexVariadic` in `src/V3Dfg.h`: members `m_srcsp`
(buffer of `DfgEdge`, each either linked to a source vertex or vacant),
`m_srcCnt` (occupancy), `m_srcCap` (capacity), and the methods
`growSources` and `addSource`.  An edge is modelled by its `m_sourcep`
field alone (`Option Nat`, `none` denoting an unlinked edge); source
vertices are identified by `Nat`. -/

/-- State of a `DfgVertexVariadic` operand buffer. -/
structure Variadic where
  srcs : List (Option Nat)
  srcCnt : Nat
  srcCap : Nat
deriving DecidableEq, Repr

/-- Translation of `DfgVertexVariadic::growSources`: double `m_srcCap`
(`uint32_t` arithmetic), allocate a fresh all-vacant buffer of the new
capacity, and relink slot `i` of the new buffer to the source of old slot
`i` for every occupied index `i < m_srcCnt`, skipping unlinked slots. -/
def growSources (v : Variadic) : Variadic :=
  let newCap := (2 * v.srcCap) % u32
  let newsp := (List.range newCap).map fun i =>
    if i < v.srcCnt then v.srcs.getD i none else none
  { srcs := newsp, srcCnt := v.srcCnt, srcCap := newCap }

/-- Translation of `DfgVertexVariadic::addSource`: grow when occupancy has
reached capacity, then return the slot index `m_srcCnt` and post-increment
the occupancy (`uint32_t` arithmetic). -/
def addSource (v : Variadic) : Variadic × Nat :=
  let v' := if v.srcCnt = v.srcCap then growSources v else v
  ({ v' with srcCnt := (v'.srcCnt + 1) % u32 }, v'.srcCnt)

/-! ### Vertex kinds, sink lists and the inlining policy

Translated from `DfgVertex::hasSinks`, `DfgVertex::hasMultipleSinks` and
`DfgVertex::inlined` in `src/V3Dfg.h`.  Only the information those
functions inspect is modelled: the dynamic kind of the vertex
(`is<DfgConst>`, `is<DfgVertexVar>`, `cast<DfgArraySel>`), the intrusive
sink list (as a list of sink identifiers), and for an `ArraySel` the kind
stored in each operand slot (slot 1 is the index operand `bitp`). -/

/-- Vertex kind classification used by `inlined`. -/
inductive VKind where
  | constK
  | varK
  | arraySelK
  | otherK
deriving DecidableEq, Repr

/-- Fields of a vertex inspected by the inlining policy: its kind, its sink
list, and the kinds held in its operand slots (`none` for a vacant slot). -/
structure VtxI where
  kind : VKind
  sinks : List Nat
  srcKinds : List (Option VKind)
deriving DecidableEq, Repr

/-- Translation of `DfgVertex::hasMultipleSinks`:
`m_sinksp && m_sinksp->m_nextp`, i.e. the sink list has two or more
entries. -/
def hasMultipleSinks (v : VtxI) : Bool :=
  match v.sinks with
  | _ :: _ :: _ => true
  | _ => false

/-- Kind of the index operand (`bitp`, operand slot 1) of an `ArraySel`. -/
def bitpKind (v : VtxI) : Option VKind :=
  (v.srcKinds.getD 1 none)

/-- Translation of `DfgVertex::inlined`: inline vertices that drive at most
a single sink, constants, variables, and array-selects whose index operand
is a constant. -/
def inlined (v : VtxI) : Bool :=
  if !hasMultipleSinks v then true
  else if v.kind = .constK then true
  else if v.kind = .varK then true
  else if v.kind = .arraySelK then bitpKind v = some .constK
  else false

/-! ### Supported data types

Translated from `DfgVertex::isSupportedPackedDType` and
`DfgVertex::isSupportedDType` in `src/V3Dfg.h`.  The relevant shape of
`AstNodeDType` is embedded as an inductive type: basic types carry whether
their keyword `isIntNumeric()`, struct/union types carry whether they are
`packed()`, reference types (`skipRefp` indirections) wrap a subtype, and
array types carry their element type `subDTypep`. -/

/-- Shallow embedding of the `AstNodeDType` shapes the DFG core inspects. -/
inductive DType where
  | basic (intNumeric : Bool)
  | packArray (sub : DType)
  | uOrStruct (packed : Bool)
  | unpackArray (sub : DType)
  | ref (sub : DType)
  | other
deriving DecidableEq, Repr

/-- Translation of `AstNodeDType::skipRefp`: strip reference indirections. -/
def skipRefp : DType → DType
  | .ref sub => skipRefp sub
  | d => d

/-- Translation of `DfgVertex::isSupportedPackedDType`.  The C++ function
first applies `skipRefp` and then dispatches on the outer shape, recursing
into the element type of a packed array; here the `ref` case implements
the `skipRefp` call structurally, which computes the same result. -/
def isSupportedPackedDType : DType → Bool
  | .basic intNumeric => intNumeric
  | .packArray sub => isSupportedPackedDType sub
  | .uOrStruct packed => packed
  | .ref sub => isSupportedPackedDType sub
  | _ => false

/-- Translation of `DfgVertex::isSupportedDType`: after `skipRefp`, accept
unpacked arrays of supported packed element types, else fall back to the
packed-type predicate. -/
def isSupportedDType (d : DType) : Bool :=
  match skipRefp d with
  | .unpackArray sub => isSupportedPackedDType sub
  | d' => isSupportedPackedDType d'

/-- Specification-side predicate, written after the words of the claim: a
type is supported-packed when, after skipping reference indirections, it
is an integer-numeric basic type, a packed array whose element type is
itself supported-packed, or a packed structure/union.  The constructors
range over already-skipped types; `SpecSupportedPacked` below adds the
skipping. -/
inductive SpecPackedCore : DType → Prop where
  | basic : SpecPackedCore (.basic true)
  | arr {sub : DType} : SpecPackedCore (skipRefp sub) → SpecPackedCore (.packArray sub)
  | strct : SpecPackedCore (.uOrStruct true)

/-- Specification-side supported-packed predicate. -/
def SpecSupportedPacked (d : DType) : Prop := SpecPackedCore (skipRefp d)

/-- Specification-side supported-type predicate, after the words of the
claim: after skipping reference indirections, the type is supported-packed,
or an unpacked array whose element type is supported-packed. -/
def SpecSupported (d : DType) : Prop :=
  (∃ sub, skipRefp d = .unpackArray sub ∧ SpecSupportedPacked sub)
  ∨ SpecPackedCore (skipRefp d)

/-! ### Graph membership bookkeeping

Translated from `DfgGraph::addVertex` and `DfgGraph::removeVertex` in
`src/V3Dfg.h`.  The three kind-partitioned intrusive vertex lists
(`m_varVertices`, `m_constVertices`, `m_opVertices`) are modelled as lists
of vertex identifiers, `m_size` as a `Nat`; `pushBack` appends at the end
and `unlink` erases the entry.  The fields of a vertex written by these
operations are its owning-graph back-reference `m_graphp` and its scratch
generation tag `m_userCnt`. -/

/-- Partition class of a vertex: the branch taken by
`vtx.is<DfgConst>()` / `vtx.is<DfgVertexVar>()` / otherwise. -/
inductive VClass where
  | constV
  | varV
  | opV
deriving DecidableEq, Repr

/-- Membership-relevant state of a vertex. -/
structure MVtx where
  id : Nat
  klass : VClass
  graphp : Option Nat
  userCnt : Nat
deriving DecidableEq, Repr

/-- Membership-relevant state of a graph: the three partitioned vertex
lists and `m_size`. -/
structure MGraph where
  varVs : List Nat
  constVs : List Nat
  opVs : List Nat
  size : Nat
deriving DecidableEq, Repr

/-- Translation of `DfgGraph::addVertex`: increment `m_size`, push the
vertex onto the list matching its kind, reset its generation tag to 0 and
point its back-reference at this graph (identified by `gid`). -/
def addVertex (g : MGraph) (v : MVtx) (gid : Nat) : MGraph × MVtx :=
  let g' :=
    match v.klass with
    | .constV => { g with size := g.size + 1, constVs := g.constVs ++ [v.id] }
    | .varV => { g with size := g.size + 1, varVs := g.varVs ++ [v.id] }
    | .opV => { g with size := g.size + 1, opVs := g.opVs ++ [v.id] }
  (g', { v with userCnt := 0, graphp := some gid })

/-- Translation of `DfgGraph::removeVertex`: decrement `m_size`, unlink the
vertex from the list matching its kind, reset its generation tag to 0 and
clear its back-reference. -/
def removeVertex (g : MGraph) (v : MVtx) : MGraph × MVtx :=
  let g' :=
    match v.klass with
    | .constV => { g with size := g.size - 1, constVs := g.constVs.erase v.id }
    | .varV => { g with size := g.size - 1, varVs := g.varVs.erase v.id }
    | .opV => { g with size := g.size - 1, opVs := g.opVs.erase v.id }
  (g', { v with userCnt := 0, graphp := none })

/-- Partitioned list of a graph holding the vertices of a given class. -/
def klassList (g : MGraph) : VClass → List Nat
  | .constV => g.constVs
  | .varV => g.varVs
  | .opV => g.opVs

/-- Size bookkeeping invariant of a graph: `m_size` equals the total number
of vertices across the three kind-partitioned lists. -/
def MInv (g : MGraph) : Prop :=
  g.size = g.varVs.length + g.constVs.length + g.opVs.length

/-! ### Structural equality and hashing over operand trees

The bodies of `DfgVertex::equals` and `DfgVertex::hash` live in
`V3Dfg.cpp`, which is not part of the sources; `src/V3Dfg.h` has only
their declarations.  Modelled from the spec: two vertices are equal iff
they have the same kind-specific local payload (`selfEquals`: same kind
and local data) and each corresponding operand pair is itself equal,
recursively; the hash combines a kind-specific local hash with the hashes
of all operands, in operand order; an unlinked edge denotes a vacant
operand slot and is excluded from traversal, equality and hashing.

A vertex together with everything upstream of it is a finite operand
tree.  Operand slot arrays are embedded as the inductive `SrcList`, where
each slot is either vacant (an edge whose `m_sourcep` is null) or linked
to the sub-tree rooted at its source vertex. -/

mutual

/-- Operand tree rooted at a vertex: vertex type tag, kind-specific local
payload, and the operand slot array. -/
inductive DfgTree : Type where
  | mk (type : Nat) (payload : Nat) (srcs : SrcList)

/-- Operand slot array: each slot either vacant or linked to a source. -/
inductive SrcList : Type where
  | nil
  | consVacant (rest : SrcList)
  | consLinked (src : DfgTree) (rest : SrcList)

end

/-- Linked sources of an operand slot array, in operand order, skipping
vacant slots; this is the sequence `DfgVertex::forEachSource` visits
(translated from `src/V3Dfg.h`: the loop skips edges with null
`m_sourcep`). -/
def sourcesOf : SrcList → List DfgTree
  | .nil => []
  | .consVacant rest => sourcesOf rest
  | .consLinked src rest => src :: sourcesOf rest

/-- All operand slots in order, vacant ones included; this is the sequence
`DfgVertex::forEachSourceEdge` visits (translated from `src/V3Dfg.h`: the
loop visits every edge in `sourceEdges()`). -/
def allSlots : SrcList → List (Option DfgTree)
  | .nil => []
  | .consVacant rest => none :: allSlots rest
  | .consLinked src rest => some src :: allSlots rest

mutual

/-- Modelled from the spec: structural vertex equality.  Two trees are
equal iff they have the same type tag and local payload (`selfEquals`)
and their linked operands correspond pairwise, vacant slots excluded. -/
def equalsB : DfgTree → DfgTree → Bool
  | .mk t1 p1 s1, .mk t2 p2 s2 => t1 == t2 && p1 == p2 && equalsL s1 s2

/-- Pairwise equality of the linked operands of two slot arrays, skipping
vacant slots on either side. -/
def equalsL : SrcList → SrcList → Bool
  | .consVacant r1, s2 => equalsL r1 s2
  | s1, .consVacant r2 => equalsL s1 r2
  | .nil, .nil => true
  | .consLinked a r1, .consLinked b r2 => equalsB a b && equalsL r1 r2
  | .nil, .consLinked _ _ => false
  | .consLinked _ _, .nil => false

end

/-- Hash-combine step, modelling `V3Hash` mixing (`uint32_t`). -/
def hashCombine (a b : Nat) : Nat := (a * 31 + b) % u32

/-- Kind-specific local hash (`selfHash`), modelled as mixing the type tag
with the local payload. -/
def selfHashM (type payload : Nat) : Nat := hashCombine type payload

mutual

/-- Modelled from the spec: structural vertex hash, combining the
kind-specific local hash with the hashes of all linked operands in
operand order, vacant slots excluded. -/
def hashT : DfgTree → Nat
  | .mk t p s => hashL (selfHashM t p) s

/-- Fold the hashes of the linked operands of a slot array into an
accumulator, in operand order, skipping vacant slots. -/
def hashL : Nat → SrcList → Nat
  | acc, .nil => acc
  | acc, .consVacant r => hashL acc r
  | acc, .consLinked x r => hashL (hashCombine acc (hashT x)) r

end

/-! ### Graph-level algorithms: topological sort and cyclic extraction

`DfgGraph::sortTopologically` and `DfgGraph::extractCyclicComponents` are
implemented in `V3Dfg.cpp`, which is not part of the sources (the header
has only the declaration and documentation of the latter, and callers of
the former).  Both are modelled from the spec below.

A graph is modelled by its iteration order (the concatenation of the three
kind-partitioned vertex lists, as visited by `forEachVertex`), its edge
list (producer, consumer), and the set of variable vertices (which act as
cut points for cyclic extraction). -/

/-- Graph model for the graph-level algorithms: the `forEachVertex`
iteration order, the directed edges (producer to consumer), and the set
of variable vertices. -/
structure DGraph where
  order : List Nat
  edges : List (Nat × Nat)
  vars : List Nat
deriving DecidableEq, Repr

/-- Edge relation of an edge list. -/
def EdgeMem (E : List (Nat × Nat)) (a b : Nat) : Prop := (a, b) ∈ E

/-- Well-formedness of a graph model: the iteration order lists each
vertex once, and all edge endpoints are vertices of the graph. -/
def WFG (g : DGraph) : Prop :=
  g.order.Nodup ∧ ∀ e ∈ g.edges, e.1 ∈ g.order ∧ e.2 ∈ g.order

/-- Existence of a cycle: some vertex reaches itself through one or more
edges. -/
def HasCycle (g : DGraph) : Prop :=
  ∃ v, Relation.TransGen (EdgeMem g.edges) v v

/-- Does vertex `v` have an incoming edge whose producer is still in the
remaining vertex set `rem`. -/
def hasIncomingFrom (E : List (Nat × Nat)) (rem : List Nat) (v : Nat) : Bool :=
  E.any fun e => e.2 == v && rem.contains e.1

/-- Kahn elimination: repeatedly emit a remaining vertex with no producer
among the remaining vertices; fail when none exists while vertices
remain.  Fuel bounds the recursion; one unit is spent per emitted
vertex. -/
def kahnAux (E : List (Nat × Nat)) : Nat → List Nat → Option (List Nat)
  | _, [] => some []
  | 0, _ :: _ => none
  | fuel + 1, rem =>
    (rem.find? fun v => !hasIncomingFrom E rem v).bind fun v =>
      (kahnAux E fuel (rem.erase v)).map fun tl => v :: tl

/-- Modelled from the spec: `DfgGraph::sortTopologically(reverse)` reorders
the iteration order so that `forEachVertex` visits producers before
consumers (or the reverse), returning `true`; on a cyclic graph it
returns `false` and leaves the graph unmodified. -/
def sortTopologically (reverse : Bool) (g : DGraph) : Bool × DGraph :=
  match kahnAux g.edges g.order.length g.order with
  | none => (false, g)
  | some ord => (true, { g with order := if reverse then ord.reverse else ord })

/-- Bounded reachability: `reachN E n a b` holds when some edge path of
length between 1 and `n` leads from `a` to `b`. -/
def reachN (E : List (Nat × Nat)) : Nat → Nat → Nat → Bool
  | 0, _, _ => false
  | n + 1, a, b => E.any fun e => e.1 == a && (e.2 == b || reachN E n e.2 b)

/-- Fuel sufficient to find any reachable vertex: a repetition-free path
visits at most one vertex per edge endpoint of `E`. -/
def reachBound (E : List (Nat × Nat)) : Nat := 2 * E.length + 1

/-- Decidable reachability through one or more edges. -/
def reachB (E : List (Nat × Nat)) (a b : Nat) : Bool := reachN E (reachBound E) a b

/-- Decidable test for lying on a cycle. -/
def onCycleB (E : List (Nat × Nat)) (v : Nat) : Bool := reachB E v v

/-- Bounded reachability constrained to pass only through intermediate
vertices satisfying `allowed`; the endpoints are not constrained. -/
def reachThruN (E : List (Nat × Nat)) (allowed : Nat → Bool) : Nat → Nat → Nat → Bool
  | 0, _, _ => false
  | n + 1, a, b =>
    E.any fun e => e.1 == a && (e.2 == b || (allowed e.2 && reachThruN E allowed n e.2 b))

/-- Decidable constrained reachability. -/
def reachThruB (E : List (Nat × Nat)) (allowed : Nat → Bool) (a b : Nat) : Bool :=
  reachThruN E allowed (reachBound E) a b

/-- Edges with both endpoints inside the vertex set `X`. -/
def restrictEdges (E : List (Nat × Nat)) (X : List Nat) : List (Nat × Nat) :=
  E.filter fun e => X.contains e.1 && X.contains e.2

/-- Symmetric closure of an edge list, for weak connectivity. -/
def symEdges (E : List (Nat × Nat)) : List (Nat × Nat) :=
  E ++ E.map fun e => (e.2, e.1)

/-- Induced sub-graph on the vertex set `X`. -/
def inducedGraph (g : DGraph) (X : List Nat) : DGraph :=
  { order := g.order.filter fun v => X.contains v
    edges := restrictEdges g.edges X
    vars := g.vars.filter fun v => X.contains v }

/-- Predicate for a non-variable vertex, through which cyclic extraction
may grow. -/
def nonVar (g : DGraph) (v : Nat) : Bool := !g.vars.contains v

/-- Modelled from the spec: the cyclic cores, i.e. the vertices lying on a
cycle (the vertices of the non-trivial strongly connected components). -/
def cyclicCore (g : DGraph) : List Nat :=
  g.order.filter (onCycleB g.edges)

/-- Modelled from the spec: a vertex is extracted when it lies on a cycle,
or feeds into or is fed from some cyclic-core vertex along a path whose
intermediate vertices are not variables (variables act as cut points). -/
def inExtracted (g : DGraph) (v : Nat) : Bool :=
  onCycleB g.edges v ||
    (cyclicCore g).any fun c =>
      reachThruB g.edges (nonVar g) v c || reachThruB g.edges (nonVar g) c v

/-- Vertices moved out of the graph by cyclic extraction. -/
def extractedSet (g : DGraph) : List Nat :=
  g.order.filter (inExtracted g)

/-- Decidable weak connectivity inside the extracted set: reachability
(reflexively) through the symmetric closure of the edges restricted to
the extracted set. -/
def undirReachB (g : DGraph) (a b : Nat) : Bool :=
  a == b || reachB (restrictEdges (symEdges g.edges) (extractedSet g)) a b

/-- Canonical representative of the weak-connectivity class of `v` inside
the extracted set: the least extracted vertex weakly connected to `v`. -/
def repOf (g : DGraph) (v : Nat) : Nat :=
  (((extractedSet g).filter fun u => undirReachB g u v).min?).getD v

/-- Weak-connectivity classes of the extracted set. -/
def componentsOf (g : DGraph) : List (List Nat) :=
  (((extractedSet g).filter fun r => repOf g r == r).map fun r =>
    (extractedSet g).filter fun u => repOf g u == r)

/-- Modelled from the spec: `DfgGraph::extractCyclicComponents` returns the
residual graph (the original minus every extracted vertex) together with
one new graph per weak-connectivity class of the extracted set. -/
def extractCyclicComponents (g : DGraph) : DGraph × List DGraph :=
  (inducedGraph g (g.order.filter fun v => !inExtracted g v),
   (componentsOf g).map (inducedGraph g))

/-- Positional statement that an iteration order visits `a` strictly before
`b`: the order splits as a prefix, then `a`, then a middle part, then `b`,
then a suffix. -/
def Before (l : List Nat) (a b : Nat) : Prop :=
  ∃ l1 l2 l3, l = l1 ++ a :: l2 ++ b :: l3

/-- Weak connectivity of a graph: every two vertices are joined by a path
that ignores edge direction. -/
def WeaklyConnected (g : DGraph) : Prop :=
  ∀ u ∈ g.order, ∀ w ∈ g.order,
    Relation.ReflTransGen (EdgeMem (symEdges g.edges)) u w

/-- Pairwise structural equality of two lists of operand trees, used to
factor `equalsL` through the vacant-slot-free source lists. -/
def equalsLL : List DfgTree → List DfgTree → Bool
  | [], [] => true
  | a :: as, b :: bs => equalsB a b && equalsLL as bs
  | _, _ => false

/-- Hash folding over a list of operand trees, used to factor `hashL`
through the vacant-slot-free source lists. -/
def hashLL (acc : Nat) (l : List DfgTree) : Nat :=
  l.foldl (fun a t => hashCombine a (hashT t)) acc

/-!
## Theorems
-/

/-- C2: calling `userDataInUse()` while a previously acquired session guard
is still live (the in-use marker nonzero) is a fatal assertion failure, as
is overflow of the `uint32_t` generation counter; hence at most one
scratch-storage generation is in use per graph at any time. -/
theorem claim_C2_session_exclusivity (g : UGraph) :
    userDataInUse g = none ↔ g.userCurrent ≠ 0 ∨ (g.userCnt + 1) % u32 = 0 := by
  unfold userDataInUse
  by_cases h1 : g.userCurrent ≠ 0 <;> by_cases h2 : (g.userCnt + 1) % u32 = 0 <;>
    simp [h1, h2]

/-- C1: each successful `userDataInUse()` installs a strictly new
generation; in the live session, the first `user<T>()` access of a vertex
with a stale tag default-initializes the slot and tags it current, and
later accesses in the session return the same storage; releasing the guard
only clears the in-use marker, so a value written in a previous session
reads as a fresh default in a later session. -/
theorem claim_C1_scratch_sessions {α : Type} [Inhabited α] (g0 : UGraph) (v : UVtx α)
    (x : α) (hcur : g0.userCurrent = 0) (htag : v.userCnt ≤ g0.userCnt)
    (hov : g0.userCnt + 2 < u32) :
    userDataInUse g0 = some ⟨g0.userCnt + 1, g0.userCnt + 1⟩ ∧
    g0.userCnt < g0.userCnt + 1 ∧
    user (⟨g0.userCnt + 1, g0.userCnt + 1⟩ : UGraph) v
      = (⟨g0.userCnt + 1, default⟩, (default : α)) ∧
    user (⟨g0.userCnt + 1, g0.userCnt + 1⟩ : UGraph) (⟨g0.userCnt + 1, (default : α)⟩ : UVtx α)
      = (⟨g0.userCnt + 1, default⟩, (default : α)) ∧
    setUser (⟨g0.userCnt + 1, g0.userCnt + 1⟩ : UGraph) v x = ⟨g0.userCnt + 1, x⟩ ∧
    user (⟨g0.userCnt + 1, g0.userCnt + 1⟩ : UGraph) (⟨g0.userCnt + 1, x⟩ : UVtx α)
      = (⟨g0.userCnt + 1, x⟩, x) ∧
    releaseUser ⟨g0.userCnt + 1, g0.userCnt + 1⟩ = ⟨0, g0.userCnt + 1⟩ ∧
    userDataInUse ⟨0, g0.userCnt + 1⟩ = some ⟨g0.userCnt + 2, g0.userCnt + 2⟩ ∧
    user (⟨g0.userCnt + 2, g0.userCnt + 2⟩ : UGraph) (⟨g0.userCnt + 1, x⟩ : UVtx α)
      = (⟨g0.userCnt + 2, default⟩, (default : α)) := by
  have h1 : (g0.userCnt + 1) % u32 = g0.userCnt + 1 := Nat.mod_eq_of_lt (by omega)
  have h2 : (g0.userCnt + 2) % u32 = g0.userCnt + 2 := Nat.mod_eq_of_lt (by omega)
  have h3 : g0.userCnt + 1 + 1 = g0.userCnt + 2 := by omega
  refine ⟨?_, by omega, ?_, ?_, ?_, ?_, ?_, ?_, ?_⟩
  · simp [userDataInUse, hcur, h1]
  · have hne : v.userCnt ≠ g0.userCnt + 1 := by omega
    simp [user, hne]
  · simp [user]
  · rfl
  · simp [user]
  · rfl
  · simp [userDataInUse, h3, h2]
  · have hne : g0.userCnt + 1 ≠ g0.userCnt + 2 := by omega
    simp [user, hne]

/-- Witness instantiating `claim_C1_scratch_sessions` at a concrete graph,
vertex and value. -/
theorem claim_C1_scratch_sessions_witness :
    (UGraph.userCurrent ⟨0, 0⟩ = 0 ∧ UVtx.userCnt (⟨0, 5⟩ : UVtx Nat) ≤ UGraph.userCnt ⟨0, 0⟩ ∧
      UGraph.userCnt (⟨0, 0⟩ : UGraph) + 2 < u32) ∧
    (userDataInUse ⟨0, 0⟩ = some ⟨1, 1⟩ ∧
      (0 : Nat) < 0 + 1 ∧
      user (⟨1, 1⟩ : UGraph) (⟨0, 5⟩ : UVtx Nat) = (⟨1, default⟩, (default : Nat)) ∧
      user (⟨1, 1⟩ : UGraph) (⟨1, (default : Nat)⟩ : UVtx Nat) = (⟨1, default⟩, (default : Nat)) ∧
      setUser (⟨1, 1⟩ : UGraph) (⟨0, 5⟩ : UVtx Nat) 7 = ⟨1, 7⟩ ∧
      user (⟨1, 1⟩ : UGraph) (⟨1, 7⟩ : UVtx Nat) = (⟨1, 7⟩, 7) ∧
      releaseUser ⟨1, 1⟩ = ⟨0, 1⟩ ∧
      userDataInUse ⟨0, 1⟩ = some ⟨2, 2⟩ ∧
      user (⟨2, 2⟩ : UGraph) (⟨1, 7⟩ : UVtx Nat) = (⟨2, default⟩, (default : Nat))) :=
  ⟨⟨rfl, by decide, by decide⟩,
    claim_C1_scratch_sessions (α := Nat) ⟨0, 0⟩ ⟨0, 5⟩ 7 rfl (by decide) (by decide)⟩

/-- C6: when a variadic vertex is at full occupancy, the next `addSource`
doubles the capacity, keeps every occupied logical slot driven by the same
source as before growth (vacant slots stay vacant), leaves the slots above
the old occupancy vacant, increments occupancy by one, and returns the
slot at the previous occupancy index. -/
theorem claim_C6_variadic_growth (v : Variadic)
    (hlen : v.srcs.length = v.srcCap) (hfull : v.srcCnt = v.srcCap)
    (hpos : 0 < v.srcCap) (hbound : 2 * v.srcCap < u32) :
    (addSource v).1.srcCap = 2 * v.srcCap ∧
    (addSource v).1.srcs.length = 2 * v.srcCap ∧
    (∀ i, i < v.srcCnt → (addSource v).1.srcs.getD i none = v.srcs.getD i none) ∧
    (∀ i, v.srcCnt ≤ i → i < 2 * v.srcCap → (addSource v).1.srcs.getD i none = none) ∧
    (addSource v).1.srcCnt = v.srcCnt + 1 ∧
    (addSource v).2 = v.srcCnt := by
  have hcapeq : (2 * v.srcCap) % u32 = 2 * v.srcCap := Nat.mod_eq_of_lt hbound
  have hone : (v.srcCap + 1) % u32 = v.srcCap + 1 := Nat.mod_eq_of_lt (by omega)
  have hadd : addSource v
      = ({ srcs := (List.range (2 * v.srcCap)).map
              (fun i => if i < v.srcCnt then v.srcs.getD i none else none),
           srcCnt := v.srcCnt + 1, srcCap := 2 * v.srcCap }, v.srcCnt) := by
    simp [addSource, growSources, hfull, hcapeq, hone]
  rw [hadd]
  refine ⟨rfl, by simp, ?_, ?_, rfl, rfl⟩
  · intro i hi
    have hilt : i < 2 * v.srcCap := by omega
    simp [List.getD, List.getElem?_map, List.getElem?_range hilt, hi]
  · intro i hge hlt
    have hnot : ¬ i < v.srcCnt := by omega
    simp [List.getD, List.getElem?_map, List.getElem?_range hlt, hnot]

/-- Witness instantiating `claim_C6_variadic_growth` at a concrete full
variadic vertex with one linked slot. -/
theorem claim_C6_variadic_growth_witness :
    ((Variadic.mk [some 3] 1 1).srcs.length = (Variadic.mk [some 3] 1 1).srcCap ∧
      (Variadic.mk [some 3] 1 1).srcCnt = (Variadic.mk [some 3] 1 1).srcCap ∧
      0 < (Variadic.mk [some 3] 1 1).srcCap ∧
      2 * (Variadic.mk [some 3] 1 1).srcCap < u32) ∧
    ((addSource (Variadic.mk [some 3] 1 1)).1.srcCap = 2 * (Variadic.mk [some 3] 1 1).srcCap ∧
      (addSource (Variadic.mk [some 3] 1 1)).1.srcs.length
        = 2 * (Variadic.mk [some 3] 1 1).srcCap ∧
      (∀ i, i < (Variadic.mk [some 3] 1 1).srcCnt →
        (addSource (Variadic.mk [some 3] 1 1)).1.srcs.getD i none
          = (Variadic.mk [some 3] 1 1).srcs.getD i none) ∧
      (∀ i, (Variadic.mk [some 3] 1 1).srcCnt ≤ i →
        i < 2 * (Variadic.mk [some 3] 1 1).srcCap →
        (addSource (Variadic.mk [some 3] 1 1)).1.srcs.getD i none = none) ∧
      (addSource (Variadic.mk [some 3] 1 1)).1.srcCnt = (Variadic.mk [some 3] 1 1).srcCnt + 1 ∧
      (addSource (Variadic.mk [some 3] 1 1)).2 = (Variadic.mk [some 3] 1 1).srcCnt) :=
  ⟨⟨rfl, rfl, by decide, by decide⟩,
    claim_C6_variadic_growth (Variadic.mk [some 3] 1 1) rfl rfl (by decide) (by decide)⟩

/-- C7: a vertex is inlined exactly when it has at most one sink, or is a
constant, or is a variable, or is an array-select whose index operand is a
constant. -/
theorem claim_C7_inlining_policy (v : VtxI) :
    inlined v = true ↔
      v.sinks.length ≤ 1 ∨ v.kind = .constK ∨ v.kind = .varK ∨
        (v.kind = .arraySelK ∧ bitpKind v = some .constK) := by
  have hms : hasMultipleSinks v = false ↔ v.sinks.length ≤ 1 := by
    unfold hasMultipleSinks
    match v.sinks with
    | [] => simp
    | [_] => simp
    | _ :: _ :: _ => simp
  unfold inlined
  rcases hk : v.kind with _ | _ | _ | _ <;>
    by_cases hm : hasMultipleSinks v = true <;>
      simp_all

/-- C9: `isSupportedDType` accepts exactly the types that, after skipping
reference indirections, are integer-numeric basic types, packed arrays of
supported-packed elements, packed structures/unions, or unpacked arrays of
supported-packed elements. -/
theorem claim_C9_supported_dtypes (d : DType) :
    isSupportedDType d = true ↔ SpecSupported d := by
  have hskip : ∀ e : DType, skipRefp (skipRefp e) = skipRefp e := by
    intro e
    induction e with
    | ref sub ih => simpa [skipRefp] using ih
    | basic i => rfl
    | packArray s => rfl
    | uOrStruct p => rfl
    | unpackArray s => rfl
    | other => rfl
  have hpacked : ∀ e : DType, isSupportedPackedDType e = true ↔ SpecPackedCore (skipRefp e) := by
    intro e
    induction e with
    | basic i =>
      cases i with
      | true => simp [isSupportedPackedDType, skipRefp]; exact SpecPackedCore.basic
      | false =>
        simp [isSupportedPackedDType, skipRefp]
        intro h
        cases h
    | packArray sub ih =>
      simp only [isSupportedPackedDType, skipRefp]
      rw [ih]
      constructor
      · exact fun h => SpecPackedCore.arr h
      · intro h
        cases h with
        | arr h => exact h
    | uOrStruct p =>
      cases p with
      | true => simp [isSupportedPackedDType, skipRefp]; exact SpecPackedCore.strct
      | false =>
        simp [isSupportedPackedDType, skipRefp]
        intro h
        cases h
    | unpackArray sub ih =>
      simp only [isSupportedPackedDType, skipRefp]
      constructor
      · intro h
        cases h
      · intro h
        cases h
    | ref sub ih =>
      simpa [isSupportedPackedDType, skipRefp] using ih
    | other =>
      simp only [isSupportedPackedDType, skipRefp]
      constructor
      · intro h
        cases h
      · intro h
        cases h
  have hnotref : ∀ e sub : DType, skipRefp e ≠ DType.ref sub := by
    intro e
    induction e with
    | ref s ih => intro sub; simpa [skipRefp] using ih sub
    | basic i => intro sub; simp [skipRefp]
    | packArray s => intro sub; simp [skipRefp]
    | uOrStruct p => intro sub; simp [skipRefp]
    | unpackArray s => intro sub; simp [skipRefp]
    | other => intro sub; simp [skipRefp]
  unfold isSupportedDType SpecSupported SpecSupportedPacked
  rcases hs : skipRefp d with i | sub | p | sub | sub | _
  · rw [hpacked]
    simp [skipRefp]
  · rw [hpacked]
    simp [skipRefp]
  · rw [hpacked]
    simp [skipRefp]
  · rw [hpacked]
    constructor
    · intro h
      exact Or.inl ⟨sub, rfl, h⟩
    · rintro (⟨s, hs2, h⟩ | h)
      · cases hs2
        exact h
      · cases h
  · exact absurd hs (hnotref d sub)
  · rw [hpacked]
    simp [skipRefp]

/-- C10: `addVertex` and `removeVertex` preserve the size bookkeeping
invariant (`m_size` equals the total of the three kind-partitioned lists),
`addVertex` routes the vertex into the list matching its kind, and a
removed vertex has its owning-graph back-reference cleared and its scratch
generation tag reset to the stale value 0; `addVertex` resets the tag as
well. -/
theorem claim_C10_membership_bookkeeping (ga : MGraph) (va : MVtx) (gid : Nat)
    (gr : MGraph) (vr : MVtx) (hinva : MInv ga) (hinvr : MInv gr)
    (hmem : vr.id ∈ klassList gr vr.klass) :
    MInv (addVertex ga va gid).1 ∧
    (addVertex ga va gid).2.graphp = some gid ∧
    (addVertex ga va gid).2.userCnt = 0 ∧
    (addVertex ga va gid).1.constVs
      = (if va.klass = .constV then ga.constVs ++ [va.id] else ga.constVs) ∧
    (addVertex ga va gid).1.varVs
      = (if va.klass = .varV then ga.varVs ++ [va.id] else ga.varVs) ∧
    (addVertex ga va gid).1.opVs
      = (if va.klass = .opV then ga.opVs ++ [va.id] else ga.opVs) ∧
    MInv (removeVertex gr vr).1 ∧
    (removeVertex gr vr).2.graphp = none ∧
    (removeVertex gr vr).2.userCnt = 0 := by
  unfold MInv at hinva hinvr ⊢
  refine ⟨?_, rfl, rfl, ?_, ?_, ?_, ?_, rfl, rfl⟩
  · rcases hka : va.klass <;> simp [addVertex, hka, hinva] <;> omega
  · rcases hka : va.klass <;> simp [addVertex, hka]
  · rcases hka : va.klass <;> simp [addVertex, hka]
  · rcases hka : va.klass <;> simp [addVertex, hka]
  · rcases hkr : vr.klass <;> rw [hkr] at hmem <;>
      simp only [klassList] at hmem <;>
      simp only [removeVertex, hkr] <;>
      simp [List.length_erase_of_mem hmem, hinvr] <;>
      (have hlen := List.length_pos_of_mem hmem; omega)

/-- Witness instantiating `claim_C10_membership_bookkeeping`: an empty
graph receiving a constant vertex, and a one-variable graph losing its
variable vertex. -/
theorem claim_C10_membership_bookkeeping_witness :
    (MInv ⟨[], [], [], 0⟩ ∧ MInv ⟨[1], [], [], 1⟩ ∧
      (1 : Nat) ∈ klassList ⟨[1], [], [], 1⟩ (MVtx.mk 1 .varV (some 0) 2).klass) ∧
    (MInv (addVertex ⟨[], [], [], 0⟩ (MVtx.mk 5 .constV none 3) 0).1 ∧
      (addVertex ⟨[], [], [], 0⟩ (MVtx.mk 5 .constV none 3) 0).2.graphp = some 0 ∧
      (addVertex ⟨[], [], [], 0⟩ (MVtx.mk 5 .constV none 3) 0).2.userCnt = 0 ∧
      (addVertex ⟨[], [], [], 0⟩ (MVtx.mk 5 .constV none 3) 0).1.constVs
        = (if (MVtx.mk 5 .constV none 3).klass = .constV then [] ++ [5] else []) ∧
      (addVertex ⟨[], [], [], 0⟩ (MVtx.mk 5 .constV none 3) 0).1.varVs
        = (if (MVtx.mk 5 .constV none 3).klass = .varV then [] ++ [5] else []) ∧
      (addVertex ⟨[], [], [], 0⟩ (MVtx.mk 5 .constV none 3) 0).1.opVs
        = (if (MVtx.mk 5 .constV none 3).klass = .opV then [] ++ [5] else []) ∧
      MInv (removeVertex ⟨[1], [], [], 1⟩ (MVtx.mk 1 .varV (some 0) 2)).1 ∧
      (removeVertex ⟨[1], [], [], 1⟩ (MVtx.mk 1 .varV (some 0) 2)).2.graphp = none ∧
      (removeVertex ⟨[1], [], [], 1⟩ (MVtx.mk 1 .varV (some 0) 2)).2.userCnt = 0) :=
  ⟨⟨rfl, rfl, by simp [klassList]⟩,
    claim_C10_membership_bookkeeping ⟨[], [], [], 0⟩ (MVtx.mk 5 .constV none 3) 0
      ⟨[1], [], [], 1⟩ (MVtx.mk 1 .varV (some 0) 2) rfl rfl (by simp [klassList])⟩

/-- Traversal of the linked sources equals filtering the vacant slots out
of the full slot sequence. -/
theorem sourcesOf_eq_filterMap : ∀ s : SrcList, sourcesOf s = (allSlots s).filterMap id
  | .nil => rfl
  | .consVacant r => by simp [sourcesOf, allSlots, sourcesOf_eq_filterMap r]
  | .consLinked x r => by simp [sourcesOf, allSlots, sourcesOf_eq_filterMap r]

/-- Operand-list equality factors through the vacant-free source lists. -/
theorem equalsL_eq_equalsLL :
    ∀ s1 s2 : SrcList, equalsL s1 s2 = equalsLL (sourcesOf s1) (sourcesOf s2)
  | .consVacant r1, s2 => by
    simp only [equalsL, sourcesOf]
    exact equalsL_eq_equalsLL r1 s2
  | .nil, .consVacant r2 => by
    simp only [equalsL, sourcesOf]
    exact equalsL_eq_equalsLL .nil r2
  | .consLinked a r1, .consVacant r2 => by
    simp only [equalsL, sourcesOf]
    exact equalsL_eq_equalsLL (.consLinked a r1) r2
  | .nil, .nil => by simp [equalsL, sourcesOf, equalsLL]
  | .nil, .consLinked b r2 => by simp [equalsL, sourcesOf, equalsLL]
  | .consLinked a r1, .nil => by simp [equalsL, sourcesOf, equalsLL]
  | .consLinked a r1, .consLinked b r2 => by
    simp only [equalsL, sourcesOf, equalsLL]
    rw [equalsL_eq_equalsLL r1 r2]
termination_by s1 s2 => sizeOf s1 + sizeOf s2

/-- Operand-list hashing factors through the vacant-free source lists. -/
theorem hashL_eq_hashLL : ∀ (acc : Nat) (s : SrcList), hashL acc s = hashLL acc (sourcesOf s)
  | acc, .nil => by simp [hashL, hashLL, sourcesOf]
  | acc, .consVacant r => by
    simp only [hashL, sourcesOf]
    exact hashL_eq_hashLL acc r
  | acc, .consLinked x r => by
    simp only [hashL, sourcesOf, hashLL, List.foldl_cons]
    exact hashL_eq_hashLL (hashCombine acc (hashT x)) r

mutual

/-- Hash agreement on structurally equal trees. -/
theorem equalsB_hashT_eq : ∀ a b : DfgTree, equalsB a b = true → hashT a = hashT b
  | .mk t1 p1 s1, .mk t2 p2 s2, h => by
    simp only [equalsB, Bool.and_eq_true, beq_iff_eq] at h
    obtain ⟨⟨ht, hp⟩, hl⟩ := h
    subst ht
    subst hp
    simp only [hashT]
    exact equalsL_hashL_eq s1 s2 hl (selfHashM t1 p1)

/-- Hash-fold agreement on pairwise equal operand lists. -/
theorem equalsL_hashL_eq :
    ∀ s1 s2 : SrcList, equalsL s1 s2 = true → ∀ acc : Nat, hashL acc s1 = hashL acc s2
  | .consVacant r1, s2, h, acc => by
    simp only [equalsL] at h
    simp only [hashL]
    exact equalsL_hashL_eq r1 s2 h acc
  | .nil, .consVacant r2, h, acc => by
    simp only [equalsL] at h
    simp only [hashL]
    exact equalsL_hashL_eq .nil r2 h acc
  | .consLinked a r1, .consVacant r2, h, acc => by
    simp only [equalsL] at h
    simp only [hashL]
    exact equalsL_hashL_eq (.consLinked a r1) r2 h acc
  | .nil, .nil, _, acc => rfl
  | .nil, .consLinked b r2, h, acc => by simp [equalsL] at h
  | .consLinked a r1, .nil, h, acc => by simp [equalsL] at h
  | .consLinked a r1, .consLinked b r2, h, acc => by
    simp only [equalsL, Bool.and_eq_true] at h
    simp only [hashL]
    rw [equalsB_hashT_eq a b h.1]
    exact equalsL_hashL_eq r1 r2 h.2 _

end

/-- C5: structural equality implies hash agreement, and the hash combines
the kind-specific local hash with the hashes of all linked operands in
operand order. -/
theorem claim_C5_hash_equality_consistency (a b : DfgTree) (h : equalsB a b = true) :
    hashT a = hashT b ∧
    ∀ (t p : Nat) (s : SrcList), hashT (.mk t p s) = hashLL (selfHashM t p) (sourcesOf s) := by
  refine ⟨equalsB_hashT_eq a b h, ?_⟩
  intro t p s
  simp only [hashT]
  exact hashL_eq_hashLL (selfHashM t p) s

/-- Witness instantiating `claim_C5_hash_equality_consistency` on two equal
trees that differ only in a vacant operand slot. -/
theorem claim_C5_hash_equality_consistency_witness :
    equalsB (.mk 1 2 (.consLinked (.mk 0 0 .nil) .nil))
        (.mk 1 2 (.consVacant (.consLinked (.mk 0 0 .nil) .nil))) = true ∧
    (hashT (.mk 1 2 (.consLinked (.mk 0 0 .nil) .nil))
        = hashT (.mk 1 2 (.consVacant (.consLinked (.mk 0 0 .nil) .nil))) ∧
      ∀ (t p : Nat) (s : SrcList), hashT (.mk t p s) = hashLL (selfHashM t p) (sourcesOf s)) :=
  ⟨by simp [equalsB, equalsL],
    claim_C5_hash_equality_consistency _ _ (by simp [equalsB, equalsL])⟩

/-- C8: vacant operand slots are excluded from traversal, equality and
hashing: source traversal yields exactly the linked slots, and two slot
arrays with the same linked sources behave identically under structural
equality and hashing. -/
theorem claim_C8_vacant_slot_exclusion (ty p : Nat) (s s' : SrcList) (v : DfgTree)
    (h : sourcesOf s = sourcesOf s') :
    sourcesOf s = (allSlots s).filterMap id ∧
    equalsB (.mk ty p s) v = equalsB (.mk ty p s') v ∧
    equalsB v (.mk ty p s) = equalsB v (.mk ty p s') ∧
    hashT (.mk ty p s) = hashT (.mk ty p s') := by
  refine ⟨sourcesOf_eq_filterMap s, ?_, ?_, ?_⟩
  · cases v with
    | mk tv pv sv =>
      simp only [equalsB]
      rw [equalsL_eq_equalsLL s sv, equalsL_eq_equalsLL s' sv, h]
  · cases v with
    | mk tv pv sv =>
      simp only [equalsB]
      rw [equalsL_eq_equalsLL sv s, equalsL_eq_equalsLL sv s', h]
  · simp only [hashT]
    rw [hashL_eq_hashLL _ s, hashL_eq_hashLL _ s', h]

/-- Splitting characterization of `Before`: reversing the order swaps the
two vertices. -/
theorem before_reverse {l : List Nat} {a b : Nat} (h : Before l a b) :
    Before l.reverse b a := by
  obtain ⟨l1, l2, l3, rfl⟩ := h
  refine ⟨l3.reverse, l2.reverse, l1.reverse, ?_⟩
  simp

/-- On an order without duplicates, being positioned before means having a
smaller index. -/
theorem before_indexOf {l : List Nat} {a b : Nat} (h : Before l a b) (hnd : l.Nodup) :
    l.indexOf a < l.indexOf b := by
  obtain ⟨l1, l2, l3, rfl⟩ := h
  rw [List.nodup_append] at hnd
  obtain ⟨hfront, hback, hdisj⟩ := hnd
  have hbmem : b ∉ l1 ++ a :: l2 := by
    intro hb
    exact List.disjoint_left.mp hdisj hb (by simp)
  have hamem : a ∈ l1 ++ a :: l2 := by simp
  have ha1 : a ∉ l1 := by
    rw [List.nodup_append] at hfront
    intro hha
    exact List.disjoint_left.mp hfront.2.2 hha (by simp)
  rw [List.indexOf_append_of_mem hamem, List.indexOf_append_of_not_mem hbmem,
    List.indexOf_append_of_not_mem ha1, List.indexOf_cons_self, List.indexOf_cons_self]
  simp [List.length_append]

/-- Successful Kahn elimination emits a permutation of the remaining
vertices. -/
theorem kahnAux_perm (E : List (Nat × Nat)) :
    ∀ (fuel : Nat) (rem ord : List Nat), kahnAux E fuel rem = some ord → rem.Perm ord := by
  intro fuel
  induction fuel with
  | zero =>
    intro rem ord h
    cases rem with
    | nil =>
      simp only [kahnAux] at h
      cases h
      exact List.Perm.refl _
    | cons x xs => simp [kahnAux] at h
  | succ fuel ih =>
    intro rem ord h
    cases rem with
    | nil =>
      simp only [kahnAux] at h
      cases h
      exact List.Perm.refl _
    | cons x xs =>
      simp only [kahnAux] at h
      rcases hf : (x :: xs).find? fun v => !hasIncomingFrom E (x :: xs) v with _ | v
      · rw [hf] at h
        simp only [Option.none_bind] at h
        cases h
      · rw [hf] at h
        simp only [Option.some_bind] at h
        rcases hrec : kahnAux E fuel ((x :: xs).erase v) with _ | tl
        · rw [hrec] at h
          simp only [Option.map_none'] at h
          cases h
        · rw [hrec] at h
          simp only [Option.map_some'] at h
          cases h
          have hv : v ∈ x :: xs := List.mem_of_find?_eq_some hf
          exact (List.perm_cons_erase hv).trans ((ih _ _ hrec).cons v)

/-- Successful Kahn elimination emits every producer before each of its
consumers among the remaining vertices. -/
theorem kahnAux_before (E : List (Nat × Nat)) :
    ∀ (fuel : Nat) (rem ord : List Nat), kahnAux E fuel rem = some ord →
      ∀ p c, (p, c) ∈ E → p ∈ rem → c ∈ rem → Before ord p c := by
  intro fuel
  induction fuel with
  | zero =>
    intro rem ord h p c he hp hc
    cases rem with
    | nil => cases hp
    | cons x xs => simp [kahnAux] at h
  | succ fuel ih =>
    intro rem ord h p c he hp hc
    cases rem with
    | nil => cases hp
    | cons x xs =>
      simp only [kahnAux] at h
      rcases hf : (x :: xs).find? fun v => !hasIncomingFrom E (x :: xs) v with _ | v
      · rw [hf] at h
        simp only [Option.none_bind] at h
        cases h
      · rw [hf] at h
        simp only [Option.some_bind] at h
        rcases hrec : kahnAux E fuel ((x :: xs).erase v) with _ | tl
        · rw [hrec] at h
          simp only [Option.map_none'] at h
          cases h
        · rw [hrec] at h
          simp only [Option.map_some'] at h
          cases h
          have hnoin : hasIncomingFrom E (x :: xs) v = false := by
            have := List.find?_some hf
            simpa using this
          by_cases hcv : c = v
          · exfalso
            subst hcv
            unfold hasIncomingFrom at hnoin
            rw [List.any_eq_false] at hnoin
            have hcontra := hnoin (p, c) he
            simp at hcontra hp
            rcases hp with h1 | h1
            · exact hcontra.1 h1
            · exact hcontra.2 h1
          · have hc2 : c ∈ (x :: xs).erase v := (List.mem_erase_of_ne hcv).mpr hc
            by_cases hpv : p = v
            · subst hpv
              have hctl : c ∈ tl := ((kahnAux_perm E fuel _ tl hrec).mem_iff).mp hc2
              obtain ⟨l2, l3, hsplit⟩ := List.append_of_mem hctl
              exact ⟨[], l2, l3, by simp [hsplit]⟩
            · have hp2 : p ∈ (x :: xs).erase v := (List.mem_erase_of_ne hpv).mpr hp
              obtain ⟨l1, l2, l3, hsplit⟩ := ih _ _ hrec p c he hp2 hc2
              exact ⟨v :: l1, l2, l3, by simp [hsplit]⟩

/-- Reachability respects positions of any order in which every edge goes
strictly forward. -/
theorem transGen_indexOf_lt (E : List (Nat × Nat)) (ord : List Nat) (hnd : ord.Nodup)
    (hb : ∀ p c, (p, c) ∈ E → Before ord p c) :
    ∀ x y, Relation.TransGen (EdgeMem E) x y → ord.indexOf x < ord.indexOf y := by
  intro x y h
  induction h with
  | single h1 => exact before_indexOf (hb _ _ h1) hnd
  | tail _ h2 ih => exact lt_trans ih (before_indexOf (hb _ _ h2) hnd)

/-- A nonempty vertex set in which every vertex keeps an incoming edge from
the set contains a cycle. -/
theorem stuck_cycle (E : List (Nat × Nat)) (rem : List Nat) (hne : rem ≠ [])
    (hstuck : ∀ v ∈ rem, hasIncomingFrom E rem v = true) :
    ∃ x, Relation.TransGen (EdgeMem E) x x := by
  classical
  have hpick : ∀ v, v ∈ rem → ∃ u, u ∈ rem ∧ (u, v) ∈ E := by
    intro v hv
    have h := hstuck v hv
    unfold hasIncomingFrom at h
    rw [List.any_eq_true] at h
    obtain ⟨e, heE, hp⟩ := h
    rw [Bool.and_eq_true, beq_iff_eq] at hp
    refine ⟨e.1, by simpa using hp.2, ?_⟩
    have hmem : (e.1, e.2) ∈ E := by simpa using heE
    rwa [hp.1] at hmem
  have hpick2 : ∀ v : Nat, ∃ u, v ∈ rem → u ∈ rem ∧ (u, v) ∈ E := by
    intro v
    by_cases hv : v ∈ rem
    · obtain ⟨u, hu⟩ := hpick v hv
      exact ⟨u, fun _ => hu⟩
    · exact ⟨0, fun h => absurd h hv⟩
  choose pick hpickspec using hpick2
  set a : Nat → Nat := fun n => pick^[n] (rem.head hne) with ha
  have hastep : ∀ n, a (n + 1) = pick (a n) := by
    intro n
    simp [ha, Function.iterate_succ_apply']
  have hamem : ∀ n, a n ∈ rem := by
    intro n
    induction n with
    | zero => simpa [ha] using List.head_mem hne
    | succ n ihn =>
      rw [hastep n]
      exact (hpickspec _ ihn).1
  have haedge : ∀ n, (a (n + 1), a n) ∈ E := by
    intro n
    rw [hastep n]
    exact (hpickspec _ (hamem n)).2
  have hchain : ∀ d i, Relation.TransGen (EdgeMem E) (a (i + d + 1)) (a i) := by
    intro d
    induction d with
    | zero =>
      intro i
      exact Relation.TransGen.single (haedge i)
    | succ d ihd =>
      intro i
      have hidx : i + (d + 1) + 1 = (i + d + 1) + 1 := by omega
      rw [hidx]
      exact Relation.TransGen.head (haedge (i + d + 1)) (ihd i)
  have hcard : rem.toFinset.card < (Finset.range (rem.length + 1)).card := by
    rw [Finset.card_range]
    exact Nat.lt_succ_of_le (List.toFinset_card_le rem)
  have hmaps : ∀ i ∈ Finset.range (rem.length + 1), a i ∈ rem.toFinset := by
    intro i _
    rw [List.mem_toFinset]
    exact hamem i
  obtain ⟨i, hi, j, hj, hij, heq⟩ :=
    Finset.exists_ne_map_eq_of_card_lt_of_maps_to hcard hmaps
  rcases lt_or_gt_of_ne hij with hlt | hgt
  · refine ⟨a i, ?_⟩
    have h := hchain (j - i - 1) i
    have hidx : i + (j - i - 1) + 1 = j := by omega
    rw [hidx, ← heq] at h
    exact h
  · refine ⟨a j, ?_⟩
    have h := hchain (i - j - 1) j
    have hidx : j + (i - j - 1) + 1 = i := by omega
    rw [hidx, heq] at h
    exact h

/-- Failing Kahn elimination (with sufficient fuel) exposes a cycle. -/
theorem kahnAux_none_cycle (E : List (Nat × Nat)) :
    ∀ (fuel : Nat) (rem : List Nat), rem.length ≤ fuel → kahnAux E fuel rem = none →
      ∃ x, Relation.TransGen (EdgeMem E) x x := by
  intro fuel
  induction fuel with
  | zero =>
    intro rem hlen h
    cases rem with
    | nil => simp [kahnAux] at h
    | cons x xs => simp at hlen
  | succ fuel ih =>
    intro rem hlen h
    cases rem with
    | nil => simp [kahnAux] at h
    | cons x xs =>
      simp only [kahnAux] at h
      rcases hf : (x :: xs).find? fun v => !hasIncomingFrom E (x :: xs) v with _ | v
      · refine stuck_cycle E (x :: xs) (by simp) ?_
        intro v hv
        have := List.find?_eq_none.mp hf v hv
        simpa using this
      · rw [hf] at h
        simp only [Option.some_bind] at h
        rcases hrec : kahnAux E fuel ((x :: xs).erase v) with _ | tl
        · have hv : v ∈ x :: xs := List.mem_of_find?_eq_some hf
          have hlen2 : ((x :: xs).erase v).length ≤ fuel := by
            rw [List.length_erase_of_mem hv]
            simp at hlen ⊢
            omega
          exact ih _ hlen2 hrec
        · rw [hrec] at h
          simp only [Option.map_some'] at h
          cases h

/-- C3: `sortTopologically` returns false and leaves the graph unmodified
on a cyclic graph; on an acyclic graph it returns true and commits a
permuted order in which every producer is visited strictly before each of
its consumers (strictly after, when reversal is requested). -/
theorem claim_C3_topological_sort (g : DGraph) (r : Bool) (hwf : WFG g) :
    (HasCycle g → sortTopologically r g = (false, g)) ∧
    (¬ HasCycle g →
      (sortTopologically r g).1 = true ∧
      (sortTopologically r g).2.order.Perm g.order ∧
      (sortTopologically r g).2.edges = g.edges ∧
      ∀ p c, (p, c) ∈ g.edges →
        (if r then Before (sortTopologically r g).2.order c p
         else Before (sortTopologically r g).2.order p c)) := by
  obtain ⟨hnd, hends⟩ := hwf
  rcases hk : kahnAux g.edges g.order.length g.order with _ | ord
  · constructor
    · intro _
      simp [sortTopologically, hk]
    · intro hnc
      exact absurd (kahnAux_none_cycle g.edges g.order.length g.order le_rfl hk) hnc
  · have hperm : g.order.Perm ord := kahnAux_perm g.edges _ _ _ hk
    have hordnd : ord.Nodup := hperm.nodup_iff.mp hnd
    have hbef : ∀ p c, (p, c) ∈ g.edges → Before ord p c := by
      intro p c he
      exact kahnAux_before g.edges _ _ _ hk p c he (hends (p, c) he).1 (hends (p, c) he).2
    have hnocycle : ¬ HasCycle g := by
      rintro ⟨v, hv⟩
      exact lt_irrefl _ (transGen_indexOf_lt g.edges ord hordnd hbef v v hv)
    constructor
    · intro hc
      exact absurd hc hnocycle
    · intro _
      refine ⟨by simp [sortTopologically, hk], ?_, by simp [sortTopologically, hk], ?_⟩
      · cases r with
        | false => simpa [sortTopologically, hk] using hperm.symm
        | true =>
          simp only [sortTopologically, hk, if_true]
          exact (List.reverse_perm ord).trans hperm.symm
      · intro p c he
        cases r with
        | false => simpa [sortTopologically, hk] using hbef p c he
        | true =>
          simp only [sortTopologically, hk, if_true]
          exact before_reverse (hbef p c he)

/-- Witness instantiating `claim_C3_topological_sort` on a concrete
three-vertex chain. -/
theorem claim_C3_topological_sort_witness :
    WFG ⟨[2, 1, 3], [(1, 2), (2, 3)], []⟩ ∧
    ((HasCycle ⟨[2, 1, 3], [(1, 2), (2, 3)], []⟩ →
      sortTopologically false ⟨[2, 1, 3], [(1, 2), (2, 3)], []⟩
        = (false, ⟨[2, 1, 3], [(1, 2), (2, 3)], []⟩)) ∧
    (¬ HasCycle ⟨[2, 1, 3], [(1, 2), (2, 3)], []⟩ →
      (sortTopologically false ⟨[2, 1, 3], [(1, 2), (2, 3)], []⟩).1 = true ∧
      (sortTopologically false ⟨[2, 1, 3], [(1, 2), (2, 3)], []⟩).2.order.Perm [2, 1, 3] ∧
      (sortTopologically false ⟨[2, 1, 3], [(1, 2), (2, 3)], []⟩).2.edges = [(1, 2), (2, 3)] ∧
      ∀ p c, (p, c) ∈ [(1, 2), (2, 3)] →
        (if false then
          Before (sortTopologically false ⟨[2, 1, 3], [(1, 2), (2, 3)], []⟩).2.order c p
         else
          Before (sortTopologically false ⟨[2, 1, 3], [(1, 2), (2, 3)], []⟩).2.order p c))) :=
  ⟨⟨by decide, by decide⟩,
    claim_C3_topological_sort ⟨[2, 1, 3], [(1, 2), (2, 3)], []⟩ false ⟨by decide, by decide⟩⟩

/-- Monotonicity of bounded reachability in the fuel. -/
theorem reachN_mono (E : List (Nat × Nat)) :
    ∀ {n m a b}, n ≤ m → reachN E n a b = true → reachN E m a b = true := by
  intro n
  induction n with
  | zero => intro m a b _ h; simp [reachN] at h
  | succ n ih =>
    intro m a b hle h
    rcases m with _ | m
    · omega
    · simp only [reachN, List.any_eq_true] at h ⊢
      obtain ⟨e, heE, hcond⟩ := h
      refine ⟨e, heE, ?_⟩
      rw [Bool.and_eq_true] at hcond ⊢
      refine ⟨hcond.1, ?_⟩
      rw [Bool.or_eq_true] at hcond ⊢
      rcases hcond.2 with h1 | h1
      · exact Or.inl h1
      · exact Or.inr (ih (by omega) h1)

/-- Soundness of bounded reachability: a positive answer yields actual
reachability. -/
theorem reachN_sound (E : List (Nat × Nat)) :
    ∀ {n a b}, reachN E n a b = true → Relation.TransGen (EdgeMem E) a b := by
  intro n
  induction n with
  | zero => intro a b h; simp [reachN] at h
  | succ n ih =>
    intro a b h
    simp only [reachN, List.any_eq_true, Bool.and_eq_true, Bool.or_eq_true, beq_iff_eq] at h
    obtain ⟨e, heE, h1, h2⟩ := h
    have heE2 : (e.1, e.2) ∈ E := by simpa using heE
    rcases h2 with h2 | h2
    · refine Relation.TransGen.single ?_
      show (a, b) ∈ E
      rwa [← h1, ← h2]
    · refine Relation.TransGen.head ?_ (ih h2)
      show (a, e.2) ∈ E
      rwa [← h1]

/-- A chain of edges of length at most the fuel is found by bounded
reachability. -/
theorem reachN_of_chain (E : List (Nat × Nat)) :
    ∀ (l : List Nat) (a b : Nat) (n : Nat), List.Chain (EdgeMem E) a l →
      l.getLast? = some b → l.length ≤ n → reachN E n a b = true := by
  intro l
  induction l with
  | nil => intro a b n _ hlast _; simp at hlast
  | cons c l2 ih =>
    intro a b n hchain hlast hlen
    rw [List.chain_cons] at hchain
    rcases n with _ | n
    · simp at hlen
    · simp only [reachN, List.any_eq_true, Bool.and_eq_true, Bool.or_eq_true, beq_iff_eq]
      refine ⟨(a, c), hchain.1, rfl, ?_⟩
      rcases l2 with _ | ⟨d, l3⟩
      · simp at hlast
        exact Or.inl hlast
      · refine Or.inr (ih c b n hchain.2 ?_ ?_)
        · simpa using hlast
        · simp at hlen ⊢
          omega

/-- Bounded reachability yields an explicit edge chain of bounded
length. -/
theorem chain_of_reachN (E : List (Nat × Nat)) :
    ∀ (n : Nat) (a b : Nat), reachN E n a b = true →
      ∃ l, List.Chain (EdgeMem E) a l ∧ l.getLast? = some b ∧ l.length ≤ n ∧ l ≠ [] := by
  intro n
  induction n with
  | zero => intro a b h; simp [reachN] at h
  | succ n ih =>
    intro a b h
    simp only [reachN, List.any_eq_true, Bool.and_eq_true, Bool.or_eq_true, beq_iff_eq] at h
    obtain ⟨e, heE, h1, h2⟩ := h
    have heE2 : (e.1, e.2) ∈ E := by simpa using heE
    rcases h2 with h2 | h2
    · refine ⟨[b], ?_, by simp, by simp, by simp⟩
      rw [List.chain_cons]
      refine ⟨?_, List.Chain.nil⟩
      show (a, b) ∈ E
      rwa [← h1, ← h2]
    · obtain ⟨l2, hchain, hlast, hlen, hne⟩ := ih e.2 b h2
      refine ⟨e.2 :: l2, ?_, ?_, by simp; omega, by simp⟩
      · rw [List.chain_cons]
        refine ⟨?_, hchain⟩
        show (a, e.2) ∈ E
        rwa [← h1]
      · rcases l2 with _ | _
        · simp at hne
        · simpa using hlast

/-- An edge chain witnesses reachability. -/
theorem transGen_of_chain (E : List (Nat × Nat)) :
    ∀ (l : List Nat) (a b : Nat), List.Chain (EdgeMem E) a l → l.getLast? = some b →
      Relation.TransGen (EdgeMem E) a b := by
  intro l
  induction l with
  | nil => intro a b _ hlast; simp at hlast
  | cons c l2 ih =>
    intro a b hchain hlast
    rw [List.chain_cons] at hchain
    rcases l2 with _ | ⟨d, l3⟩
    · simp at hlast
      exact Relation.TransGen.single (hlast ▸ hchain.1)
    · exact Relation.TransGen.head hchain.1 (ih c b hchain.2 (by simpa using hlast))

/-- Every vertex before the final one on an edge chain is the source of
some edge. -/
theorem chain_sources_mem (E : List (Nat × Nat)) :
    ∀ (l : List Nat) (a : Nat), List.Chain (EdgeMem E) a l → l ≠ [] →
      ∀ x ∈ a :: l.dropLast, x ∈ E.map Prod.fst := by
  intro l
  induction l with
  | nil => intro a _ hne; exact absurd rfl hne
  | cons c l2 ih =>
    intro a hchain _ x hx
    rw [List.chain_cons] at hchain
    rcases l2 with _ | ⟨d, l3⟩
    · simp at hx
      rw [hx]
      exact List.mem_map.mpr ⟨(a, c), hchain.1, rfl⟩
    · simp only [List.dropLast_cons₂, List.mem_cons] at hx
      rcases hx with rfl | hx
      · exact List.mem_map.mpr ⟨(x, c), hchain.1, rfl⟩
      · exact ih c hchain.2 (by simp) x (by simpa using hx)

/-- A list with a repetition splits around the repeated element. -/
theorem not_nodup_split {m : List Nat} (h : ¬ m.Nodup) :
    ∃ (x : Nat) (A M Z : List Nat), m = A ++ x :: M ++ x :: Z := by
  obtain ⟨x, hdup⟩ := List.exists_duplicate_iff_not_nodup.mpr h
  have hsub : List.Sublist [x, x] m := List.duplicate_iff_sublist.mp hdup
  rw [List.cons_sublist_iff] at hsub
  obtain ⟨r1, r2, hm, hx1, hsub2⟩ := hsub
  rw [List.cons_sublist_iff] at hsub2
  obtain ⟨s1, s2, hr2, hx2, _⟩ := hsub2
  obtain ⟨p1, q1, hp1⟩ := List.append_of_mem hx1
  obtain ⟨p2, q2, hp2⟩ := List.append_of_mem hx2
  refine ⟨x, p1, q1 ++ p2, q2 ++ s2, ?_⟩
  subst hm hr2 hp1 hp2
  simp

/-- Edge chains shorten to chains whose vertices are repetition-free except
possibly for the final endpoint. -/
theorem chain_shorten (E : List (Nat × Nat)) :
    ∀ (n : Nat) (l : List Nat) (a b : Nat), l.length ≤ n →
      List.Chain (EdgeMem E) a l → l.getLast? = some b →
      ∃ l', List.Chain (EdgeMem E) a l' ∧ l'.getLast? = some b ∧ l' ≠ [] ∧
        (a :: l'.dropLast).Nodup ∧ l'.length ≤ l.length := by
  intro n
  induction n with
  | zero =>
    intro l a b hlen hchain hlast
    rcases l with _ | _
    · simp at hlast
    · simp at hlen
  | succ n ih =>
    intro l a b hlen hchain hlast
    have hlne : l ≠ [] := by
      intro hl
      rw [hl] at hlast
      simp at hlast
    by_cases hnd : (a :: l.dropLast).Nodup
    · exact ⟨l, hchain, hlast, hlne, hnd, le_rfl⟩
    · obtain ⟨x, A, M, Z, hsplit⟩ := not_nodup_split hnd
      -- reconstitute the full vertex list
      have hw : a :: l = (A ++ x :: M ++ x :: Z) ++ [b] := by
        have hbl : l.getLast hlne = b := by
          rw [List.getLast?_eq_getLast l hlne] at hlast
          exact Option.some_injective _ hlast
        calc a :: l = (a :: l).dropLast ++ [(a :: l).getLast (by simp)] :=
              (List.dropLast_concat_getLast _).symm
        _ = (A ++ x :: M ++ x :: Z) ++ [b] := by
              rw [List.dropLast_cons_of_ne_nil hlne, ← hsplit]
              congr 1
              simp [List.getLast_cons hlne, hbl]
      -- cut out the loop between the two occurrences of x
      have hchain' : List.Chain' (EdgeMem E) (a :: l) := hchain
      rw [hw] at hchain'
      have hshape : (A ++ x :: M ++ x :: Z) ++ [b] = (A ++ x :: M) ++ x :: (Z ++ [b]) := by
        simp
      rw [hshape, List.chain'_split] at hchain'
      obtain ⟨hc1, hc2⟩ := hchain'
      have hshape2 : (A ++ x :: M) ++ [x] = A ++ x :: (M ++ [x]) := by simp
      rw [hshape2, List.chain'_split] at hc1
      have hcut : List.Chain' (EdgeMem E) (A ++ x :: (Z ++ [b])) :=
        List.chain'_split.mpr ⟨hc1.1, hc2⟩
      -- the cut list still starts at a and ends at b
      have hhead : (A ++ x :: M ++ x :: Z ++ [b] : List Nat) ≠ [] := by simp
      have hne2 : (A ++ x :: (Z ++ [b]) : List Nat) ≠ [] := by simp
      rcases hA : A with _ | ⟨a0, A'⟩
      · -- a is the first occurrence of x
        subst hA
        have hax : a = x := by
          have := hw
          simp at this
          exact this.1
        subst hax
        simp only [List.nil_append] at hcut
        have hchain2 : List.Chain (EdgeMem E) a (Z ++ [b]) := hcut
        have hlast2 : (Z ++ [b]).getLast? = some b := by simp
        have hlen2 : (Z ++ [b]).length ≤ n := by
          have hlenl : l.length = M.length + Z.length + 2 := by
            have := congrArg List.length hw
            simp at this
            omega
          simp at hlen ⊢
          omega
        obtain ⟨l', hl1, hl2, hl3, hl4, hl5⟩ := ih (Z ++ [b]) a b hlen2 hchain2 hlast2
        refine ⟨l', hl1, hl2, hl3, hl4, ?_⟩
        have hlenl : l.length = M.length + Z.length + 2 := by
          have := congrArg List.length hw
          simp at this
          omega
        simp at hl5 ⊢
        omega
      · -- a heads the prefix A
        subst hA
        have haa0 : a = a0 := by
          have := hw
          simp at this
          exact this.1
        subst haa0
        have hchain2 : List.Chain (EdgeMem E) a (A' ++ x :: (Z ++ [b])) := by
          have : List.Chain' (EdgeMem E) (a :: (A' ++ x :: (Z ++ [b]))) := by
            simpa using hcut
          exact this
        have hlast2 : (A' ++ x :: (Z ++ [b])).getLast? = some b := by
          have hsh : A' ++ x :: (Z ++ [b]) = (A' ++ x :: Z) ++ [b] := by simp
          rw [hsh, List.getLast?_concat]
        have hlen2 : (A' ++ x :: (Z ++ [b])).length ≤ n := by
          have := congrArg List.length hw
          simp at this hlen ⊢
          omega
        obtain ⟨l', hl1, hl2, hl3, hl4, hl5⟩ := ih _ a b hlen2 hchain2 hlast2
        refine ⟨l', hl1, hl2, hl3, hl4, ?_⟩
        have := congrArg List.length hw
        simp at this hl5 ⊢
        omega

/-- A repetition-free list included in another list is at most as long. -/
theorem nodup_length_le_of_subset {m m2 : List Nat} (hnd : m.Nodup)
    (hsub : ∀ x ∈ m, x ∈ m2) : m.length ≤ m2.length := by
  calc m.length = m.toFinset.card := (List.toFinset_card_of_nodup hnd).symm
  _ ≤ m2.toFinset.card :=
      Finset.card_le_card fun x hx => List.mem_toFinset.mpr (hsub x (List.mem_toFinset.mp hx))
  _ ≤ m2.length := List.toFinset_card_le m2

/-- Completeness of decidable reachability: the fuel `reachBound` always
suffices. -/
theorem transGen_reachB (E : List (Nat × Nat)) {a b : Nat}
    (h : Relation.TransGen (EdgeMem E) a b) : reachB E a b = true := by
  rw [Relation.TransGen.head'_iff] at h
  obtain ⟨c, hac, hcb⟩ := h
  obtain ⟨l0, hchain0, hlast0⟩ := List.exists_chain_of_relationReflTransGen hcb
  have hchain : List.Chain (EdgeMem E) a (c :: l0) := List.chain_cons.mpr ⟨hac, hchain0⟩
  have hlast : (c :: l0).getLast? = some b := by
    rw [List.getLast?_eq_getLast _ (by simp)]
    exact congrArg some hlast0
  obtain ⟨l', hl1, hl2, hl3, hl4, _⟩ :=
    chain_shorten E (c :: l0).length (c :: l0) a b le_rfl hchain hlast
  have hsrc : ∀ x ∈ a :: l'.dropLast, x ∈ E.map Prod.fst :=
    chain_sources_mem E l' a hl1 hl3
  have hlenbound : (a :: l'.dropLast).length ≤ E.length := by
    have := nodup_length_le_of_subset hl4 hsrc
    simpa using this
  have hlen : l'.length ≤ reachBound E := by
    have hpos : 0 < l'.length := List.length_pos.mpr hl3
    have hdl : l'.dropLast.length = l'.length - 1 := by simp
    unfold reachBound
    simp at hlenbound
    omega
  exact reachN_of_chain E l' a b (reachBound E) hl1 hl2 hlen

/-- Decidable reachability coincides with reachability. -/
theorem reachB_iff (E : List (Nat × Nat)) (a b : Nat) :
    reachB E a b = true ↔ Relation.TransGen (EdgeMem E) a b :=
  ⟨reachN_sound E, transGen_reachB E⟩

/-- Membership in the symmetric closure of an edge list. -/
theorem mem_symEdges {E : List (Nat × Nat)} {u w : Nat} :
    (u, w) ∈ symEdges E ↔ (u, w) ∈ E ∨ (w, u) ∈ E := by
  unfold symEdges
  rw [List.mem_append, List.mem_map]
  constructor
  · rintro (h | ⟨e, he, heq⟩)
    · exact Or.inl h
    · right
      have h1 : e.2 = u := congrArg Prod.fst heq
      have h2 : e.1 = w := congrArg Prod.snd heq
      have : (e.1, e.2) ∈ E := by simpa using he
      rwa [h1, h2] at this
  · rintro (h | h)
    · exact Or.inl h
    · exact Or.inr ⟨(w, u), h, rfl⟩

/-- Membership in an edge list restricted to a vertex set. -/
theorem mem_restrictEdges {E : List (Nat × Nat)} {X : List Nat} {u w : Nat} :
    (u, w) ∈ restrictEdges E X ↔ (u, w) ∈ E ∧ u ∈ X ∧ w ∈ X := by
  unfold restrictEdges
  rw [List.mem_filter]
  simp [List.elem_iff]

/-- The restricted symmetric edge relation is symmetric. -/
theorem symRestrict_symm (E : List (Nat × Nat)) (X : List Nat) :
    ∀ u w, EdgeMem (restrictEdges (symEdges E) X) u w →
      EdgeMem (restrictEdges (symEdges E) X) w u := by
  intro u w h
  have h2 := mem_restrictEdges.mp h
  refine mem_restrictEdges.mpr ⟨?_, h2.2.2, h2.2.1⟩
  have := mem_symEdges.mp h2.1
  exact mem_symEdges.mpr this.symm

/-- Reachability through a symmetric relation is symmetric. -/
theorem transGen_symm {r : Nat → Nat → Prop} (hs : ∀ x y, r x y → r y x) {a b : Nat}
    (h : Relation.TransGen r a b) : Relation.TransGen r b a := by
  induction h with
  | single h1 => exact Relation.TransGen.single (hs _ _ h1)
  | tail _ h2 ih => exact Relation.TransGen.head (hs _ _ h2) ih

/-- A chain of length at most the fuel whose interior vertices are allowed
is found by constrained bounded reachability. -/
theorem reachThruN_of_chain (E : List (Nat × Nat)) (allowed : Nat → Bool) :
    ∀ (l : List Nat) (a b : Nat) (n : Nat), List.Chain (EdgeMem E) a l →
      l.getLast? = some b → (∀ x ∈ l.dropLast, allowed x = true) → l.length ≤ n →
      reachThruN E allowed n a b = true := by
  intro l
  induction l with
  | nil => intro a b n _ hlast _ _; simp at hlast
  | cons c l2 ih =>
    intro a b n hchain hlast hall hlen
    rw [List.chain_cons] at hchain
    rcases n with _ | n
    · simp at hlen
    · simp only [reachThruN, List.any_eq_true, Bool.and_eq_true, Bool.or_eq_true, beq_iff_eq]
      refine ⟨(a, c), hchain.1, rfl, ?_⟩
      rcases l2 with _ | ⟨d, l3⟩
      · simp at hlast
        exact Or.inl hlast
      · refine Or.inr ⟨hall c (by simp), ih c b n hchain.2 ?_ ?_ ?_⟩
        · simpa using hlast
        · intro x hx
          exact hall x (by simp at hx ⊢; exact Or.inr hx)
        · simp at hlen ⊢
          omega

/-- Constrained bounded reachability yields an explicit chain with allowed
interior vertices. -/
theorem chain_of_reachThruN (E : List (Nat × Nat)) (allowed : Nat → Bool) :
    ∀ (n : Nat) (a b : Nat), reachThruN E allowed n a b = true →
      ∃ l, List.Chain (EdgeMem E) a l ∧ l.getLast? = some b ∧
        (∀ x ∈ l.dropLast, allowed x = true) ∧ l.length ≤ n ∧ l ≠ [] := by
  intro n
  induction n with
  | zero => intro a b h; simp [reachThruN] at h
  | succ n ih =>
    intro a b h
    simp only [reachThruN, List.any_eq_true, Bool.and_eq_true, Bool.or_eq_true,
      beq_iff_eq] at h
    obtain ⟨e, heE, h1, h2⟩ := h
    have heE2 : (e.1, e.2) ∈ E := by simpa using heE
    rcases h2 with h2 | ⟨hall2, h2⟩
    · refine ⟨[b], ?_, by simp, by simp, by simp, by simp⟩
      rw [List.chain_cons]
      refine ⟨?_, List.Chain.nil⟩
      show (a, b) ∈ E
      rwa [← h1, ← h2]
    · obtain ⟨l2, hchain, hlast, hall, hlen, hne⟩ := ih e.2 b h2
      refine ⟨e.2 :: l2, ?_, ?_, ?_, by simp; omega, by simp⟩
      · rw [List.chain_cons]
        refine ⟨?_, hchain⟩
        show (a, e.2) ∈ E
        rwa [← h1]
      · rcases l2 with _ | _
        · simp at hne
        · simpa using hlast
      · intro x hx
        rcases l2 with _ | ⟨d, l3⟩
        · simp at hx
        · simp at hx
          rcases hx with rfl | hx
          · exact hall2
          · exact hall x (by simpa using hx)

/-- Every element of a list with a last element is interior or final. -/
theorem mem_dropLast_or_last {l : List Nat} {b : Nat} (hlast : l.getLast? = some b) :
    ∀ x ∈ l, x ∈ l.dropLast ∨ x = b := by
  intro x hx
  have hne : l ≠ [] := by
    intro h
    rw [h] at hlast
    simp at hlast
  have hdecomp : l = l.dropLast ++ [b] := by
    have := List.dropLast_concat_getLast hne
    rw [List.getLast?_eq_getLast _ hne] at hlast
    rw [Option.some_injective _ hlast] at this
    exact this.symm
  rw [hdecomp] at hx
  rcases List.mem_append.mp hx with h | h
  · exact Or.inl h
  · simp at h
    exact Or.inr h

/-- Suffix extraction: from any interior vertex of a chain, the remainder
of the chain reaches the final vertex through a subset of the original
interior. -/
theorem chain_suffix (E : List (Nat × Nat)) :
    ∀ (l : List Nat) (a b w : Nat), List.Chain (EdgeMem E) a l → l.getLast? = some b →
      w ∈ l.dropLast →
      ∃ lw, List.Chain (EdgeMem E) w lw ∧ lw.getLast? = some b ∧
        lw.length ≤ l.length ∧ (∀ x ∈ lw.dropLast, x ∈ l.dropLast) ∧ lw ≠ [] := by
  intro l
  induction l with
  | nil => intro a b w _ _ hw; simp at hw
  | cons c l2 ih =>
    intro a b w hchain hlast hw
    rw [List.chain_cons] at hchain
    rcases l2 with _ | ⟨d, l3⟩
    · simp at hw
    · simp only [List.dropLast_cons₂, List.mem_cons] at hw
      rcases hw with rfl | hw
      · refine ⟨d :: l3, hchain.2, by simpa using hlast, by simp, ?_, by simp⟩
        intro x hx
        simp at hx ⊢
        exact Or.inr hx
      · obtain ⟨lw, h1, h2, h3, h4, h5⟩ := ih c b w hchain.2 (by simpa using hlast) hw
        refine ⟨lw, h1, h2, by simp at h3 ⊢; omega, ?_, h5⟩
        intro x hx
        have := h4 x hx
        simp at this ⊢
        exact Or.inr this

/-- Prefix extraction: any interior vertex of a chain is reached from the
head through a subset of the original interior. -/
theorem chain_prefix (E : List (Nat × Nat)) :
    ∀ (l : List Nat) (a b w : Nat), List.Chain (EdgeMem E) a l → l.getLast? = some b →
      w ∈ l.dropLast →
      ∃ lp, List.Chain (EdgeMem E) a lp ∧ lp.getLast? = some w ∧
        lp.length ≤ l.length ∧ (∀ x ∈ lp.dropLast, x ∈ l.dropLast) ∧ lp ≠ [] := by
  intro l
  induction l with
  | nil => intro a b w _ _ hw; simp at hw
  | cons c l2 ih =>
    intro a b w hchain hlast hw
    rw [List.chain_cons] at hchain
    rcases l2 with _ | ⟨d, l3⟩
    · simp at hw
    · simp only [List.dropLast_cons₂, List.mem_cons] at hw
      rcases hw with rfl | hw
      · refine ⟨[w], List.chain_cons.mpr ⟨hchain.1, List.Chain.nil⟩, by simp, by simp, ?_,
          by simp⟩
        intro x hx
        simp at hx
      · obtain ⟨lp, h1, h2, h3, h4, h5⟩ := ih c b w hchain.2 (by simpa using hlast) hw
        refine ⟨c :: lp, List.chain_cons.mpr ⟨hchain.1, h1⟩, ?_, by simp at h3 ⊢; omega, ?_, by simp⟩
        · rcases lp with _ | _
          · simp at h5
          · simpa using h2
        · intro x hx
          rcases lp with _ | ⟨e0, lp2⟩
          · simp at h5
          · simp at hx ⊢
            rcases hx with rfl | hx
            · exact Or.inl rfl
            · exact Or.inr (by simpa using h4 x (by simpa using hx))

/-- Chain elements are edge targets. -/
theorem chain_elems_target (E : List (Nat × Nat)) :
    ∀ (l : List Nat) (a : Nat), List.Chain (EdgeMem E) a l →
      ∀ x ∈ l, ∃ y, (y, x) ∈ E := by
  intro l
  induction l with
  | nil => intro a _ x hx; simp at hx
  | cons c l2 ih =>
    intro a hchain x hx
    rw [List.chain_cons] at hchain
    rcases List.mem_cons.mp hx with rfl | hx
    · exact ⟨a, hchain.1⟩
    · exact ih c hchain.2 x hx

/-- A chain whose vertices all lie in `X` also chains through the
symmetric closure restricted to `X`. -/
theorem chain_to_restricted_sym (E0 : List (Nat × Nat)) (X : List Nat) :
    ∀ (l : List Nat) (a : Nat), List.Chain (EdgeMem E0) a l → a ∈ X →
      (∀ x ∈ l, x ∈ X) →
      List.Chain (EdgeMem (restrictEdges (symEdges E0) X)) a l := by
  intro l
  induction l with
  | nil => intro a _ _ _; exact List.Chain.nil
  | cons c l2 ih =>
    intro a hchain ha hall
    rw [List.chain_cons] at hchain ⊢
    refine ⟨?_, ih c hchain.2 (hall c (by simp)) fun x hx => hall x (by simp [hx])⟩
    exact mem_restrictEdges.mpr ⟨mem_symEdges.mpr (Or.inl hchain.1), ha, hall c (by simp)⟩

/-- A chain whose vertices all lie in `Kl` also chains through the edges
restricted to `Kl`. -/
theorem chain_restrict_dir (E0 : List (Nat × Nat)) (Kl : List Nat) :
    ∀ (l : List Nat) (a : Nat), List.Chain (EdgeMem E0) a l → a ∈ Kl →
      (∀ x ∈ l, x ∈ Kl) →
      List.Chain (EdgeMem (restrictEdges E0 Kl)) a l := by
  intro l
  induction l with
  | nil => intro a _ _ _; exact List.Chain.nil
  | cons c l2 ih =>
    intro a hchain ha hall
    rw [List.chain_cons] at hchain ⊢
    refine ⟨?_, ih c hchain.2 (hall c (by simp)) fun x hx => hall x (by simp [hx])⟩
    exact mem_restrictEdges.mpr ⟨hchain.1, ha, hall c (by simp)⟩

/-- A chain through the restricted symmetric closure whose vertices lie in
`Kl` also chains through the symmetric closure of the edges restricted
to `Kl`. -/
theorem chain_sym_to_induced (E0 : List (Nat × Nat)) (X Kl : List Nat) :
    ∀ (l : List Nat) (a : Nat),
      List.Chain (EdgeMem (restrictEdges (symEdges E0) X)) a l → a ∈ Kl →
      (∀ x ∈ l, x ∈ Kl) →
      List.Chain (EdgeMem (symEdges (restrictEdges E0 Kl))) a l := by
  intro l
  induction l with
  | nil => intro a _ _ _; exact List.Chain.nil
  | cons c l2 ih =>
    intro a hchain ha hall
    rw [List.chain_cons] at hchain ⊢
    refine ⟨?_, ih c hchain.2 (hall c (by simp)) fun x hx => hall x (by simp [hx])⟩
    have hsym := (mem_restrictEdges.mp hchain.1).1
    have hc : c ∈ Kl := hall c (by simp)
    rcases mem_symEdges.mp hsym with h | h
    · exact mem_symEdges.mpr (Or.inl (mem_restrictEdges.mpr ⟨h, ha, hc⟩))
    · exact mem_symEdges.mpr (Or.inr (mem_restrictEdges.mpr ⟨h, hc, ha⟩))

/-- Decidable weak connectivity unfolded to equality or reachability over
the restricted symmetric closure. -/
theorem undirReachB_iff (g : DGraph) (a b : Nat) :
    undirReachB g a b = true ↔
      a = b ∨ Relation.TransGen
        (EdgeMem (restrictEdges (symEdges g.edges) (extractedSet g))) a b := by
  unfold undirReachB
  rw [Bool.or_eq_true, beq_iff_eq, reachB_iff]

/-- Weak connectivity is reflexive. -/
theorem undirReachB_refl (g : DGraph) (v : Nat) : undirReachB g v v = true := by
  rw [undirReachB_iff]
  exact Or.inl rfl

/-- Weak connectivity is symmetric. -/
theorem undirReachB_symm (g : DGraph) {a b : Nat} (h : undirReachB g a b = true) :
    undirReachB g b a = true := by
  rw [undirReachB_iff] at h ⊢
  rcases h with rfl | h
  · exact Or.inl rfl
  · exact Or.inr (transGen_symm (symRestrict_symm _ _) h)

/-- Weak connectivity is transitive. -/
theorem undirReachB_trans (g : DGraph) {a b c : Nat} (h1 : undirReachB g a b = true)
    (h2 : undirReachB g b c = true) : undirReachB g a c = true := by
  rw [undirReachB_iff] at h1 h2 ⊢
  rcases h1 with rfl | h1
  · exact h2
  · rcases h2 with rfl | h2
    · exact Or.inr h1
    · exact Or.inr (h1.trans h2)

/-- The canonical representative lies in the extracted set and is weakly
connected to its vertex. -/
theorem repOf_spec (g : DGraph) (v : Nat) (hv : v ∈ extractedSet g) :
    repOf g v ∈ extractedSet g ∧ undirReachB g (repOf g v) v = true := by
  unfold repOf
  have hvmem : v ∈ (extractedSet g).filter fun u => undirReachB g u v :=
    List.mem_filter.mpr ⟨hv, undirReachB_refl g v⟩
  obtain ⟨m, hm⟩ := Option.isSome_iff_exists.mp (List.isSome_min?_of_mem hvmem)
  rw [hm]
  have hmem := List.min?_mem (fun a b => min_choice a b) hm
  have h2 := List.mem_filter.mp hmem
  simpa using ⟨h2.1, h2.2⟩

/-- Weakly connected vertices share a representative. -/
theorem repOf_congr (g : DGraph) {u v : Nat} (hu : u ∈ extractedSet g)
    (h : undirReachB g u v = true) : repOf g u = repOf g v := by
  have hfe : ∀ w ∈ extractedSet g,
      (fun w => undirReachB g w u) w = (fun w => undirReachB g w v) w := by
    intro w _
    have hiff : undirReachB g w u = true ↔ undirReachB g w v = true :=
      ⟨fun hh => undirReachB_trans g hh h,
       fun hh => undirReachB_trans g hh (undirReachB_symm g h)⟩
    show undirReachB g w u = undirReachB g w v
    cases hbu : undirReachB g w u with
    | false =>
      cases hbv : undirReachB g w v with
      | false => rfl
      | true => exact absurd (hiff.mpr hbv) (by simp [hbu])
    | true =>
      cases hbv : undirReachB g w v with
      | false => exact absurd (hiff.mp hbu) (by simp [hbv])
      | true => rfl
  unfold repOf
  rw [List.filter_congr hfe]
  have humem : u ∈ (extractedSet g).filter fun w => undirReachB g w v :=
    List.mem_filter.mpr ⟨hu, h⟩
  obtain ⟨m, hm⟩ := Option.isSome_iff_exists.mp (List.isSome_min?_of_mem humem)
  rw [hm]
  rfl

/-- The returned component lists are exactly the classes of the chosen
canonical representatives. -/
theorem mem_componentsOf {g : DGraph} {K : List Nat} :
    K ∈ componentsOf g ↔
      ∃ r, r ∈ extractedSet g ∧ repOf g r = r ∧
        K = (extractedSet g).filter fun u => repOf g u == r := by
  unfold componentsOf
  rw [List.mem_map]
  constructor
  · rintro ⟨r, hr, rfl⟩
    have h2 := List.mem_filter.mp hr
    exact ⟨r, h2.1, by simpa using h2.2, rfl⟩
  · rintro ⟨r, h1, h2, rfl⟩
    exact ⟨r, List.mem_filter.mpr ⟨h1, by simpa using h2⟩, rfl⟩

/-- Membership in a representative class. -/
theorem mem_class_iff {g : DGraph} {r u : Nat} :
    (u ∈ (extractedSet g).filter fun w => repOf g w == r) ↔
      u ∈ extractedSet g ∧ repOf g u = r := by
  rw [List.mem_filter]
  simp

/-- Membership in the extracted set. -/
theorem mem_extractedSet {g : DGraph} {v : Nat} :
    v ∈ extractedSet g ↔ v ∈ g.order ∧ inExtracted g v = true := by
  unfold extractedSet
  exact List.mem_filter

/-- Membership in the cyclic core. -/
theorem mem_cyclicCore {g : DGraph} {c : Nat} :
    c ∈ cyclicCore g ↔ c ∈ g.order ∧ onCycleB g.edges c = true := by
  unfold cyclicCore
  exact List.mem_filter

/-- Extraction test unfolded. -/
theorem inExtracted_iff {g : DGraph} {v : Nat} :
    inExtracted g v = true ↔
      onCycleB g.edges v = true ∨ ∃ c ∈ cyclicCore g,
        reachThruB g.edges (nonVar g) v c = true ∨
          reachThruB g.edges (nonVar g) c v = true := by
  unfold inExtracted
  rw [Bool.or_eq_true, List.any_eq_true]
  simp

/-- Chain elements are vertices of a well-formed graph. -/
theorem chain_elems_order {g : DGraph} (hwf : WFG g) :
    ∀ (l : List Nat) (a : Nat), List.Chain (EdgeMem g.edges) a l → ∀ x ∈ l, x ∈ g.order := by
  intro l a hchain x hx
  obtain ⟨y, hy⟩ := chain_elems_target g.edges l a hchain x hx
  exact (hwf.2 (y, x) hy).2

/-- A vertex that feeds into or is fed from a cyclic-core vertex through
non-variable interiors is extracted and weakly connected to that core
vertex inside the extracted set. -/
theorem thru_connect (g : DGraph) (hwf : WFG g) {v c : Nat} (hvord : v ∈ g.order)
    (hc : c ∈ cyclicCore g)
    (hthru : reachThruB g.edges (nonVar g) v c = true ∨
      reachThruB g.edges (nonVar g) c v = true) :
    v ∈ extractedSet g ∧ undirReachB g v c = true := by
  have hcX : c ∈ extractedSet g := by
    rw [mem_extractedSet]
    refine ⟨(mem_cyclicCore.mp hc).1, ?_⟩
    unfold inExtracted
    rw [Bool.or_eq_true]
    exact Or.inl (mem_cyclicCore.mp hc).2
  have hvX : v ∈ extractedSet g := by
    rw [mem_extractedSet]
    exact ⟨hvord, inExtracted_iff.mpr (Or.inr ⟨c, hc, hthru⟩)⟩
  refine ⟨hvX, ?_⟩
  rcases hthru with hthru | hthru
  · obtain ⟨l, hch, hlast, hall, hlen, hne⟩ :=
      chain_of_reachThruN g.edges (nonVar g) (reachBound g.edges) v c hthru
    have hXl : ∀ x ∈ l, x ∈ extractedSet g := by
      intro x hx
      rcases mem_dropLast_or_last hlast x hx with hxi | rfl
      · obtain ⟨lw, hw1, hw2, hw3, hw4, _⟩ := chain_suffix g.edges l v c x hch hlast hxi
        have hthrux : reachThruB g.edges (nonVar g) x c = true := by
          refine reachThruN_of_chain g.edges (nonVar g) lw x c (reachBound g.edges) hw1 hw2
            ?_ (le_trans hw3 hlen)
          intro z hz
          exact hall z (hw4 z hz)
        rw [mem_extractedSet]
        refine ⟨chain_elems_order hwf l v hch x hx, ?_⟩
        exact inExtracted_iff.mpr (Or.inr ⟨c, hc, Or.inl hthrux⟩)
      · exact hcX
    have hchD := chain_to_restricted_sym g.edges (extractedSet g) l v hch hvX hXl
    exact (undirReachB_iff g _ _).mpr (Or.inr (transGen_of_chain _ l v c hchD hlast))
  · obtain ⟨l, hch, hlast, hall, hlen, hne⟩ :=
      chain_of_reachThruN g.edges (nonVar g) (reachBound g.edges) c v hthru
    have hXl : ∀ x ∈ l, x ∈ extractedSet g := by
      intro x hx
      rcases mem_dropLast_or_last hlast x hx with hxi | rfl
      · obtain ⟨lp, hp1, hp2, hp3, hp4, _⟩ := chain_prefix g.edges l c v x hch hlast hxi
        have hthrux : reachThruB g.edges (nonVar g) c x = true := by
          refine reachThruN_of_chain g.edges (nonVar g) lp c x (reachBound g.edges) hp1 hp2
            ?_ (le_trans hp3 hlen)
          intro z hz
          exact hall z (hp4 z hz)
        rw [mem_extractedSet]
        refine ⟨chain_elems_order hwf l c hch x hx, ?_⟩
        exact inExtracted_iff.mpr (Or.inr ⟨c, hc, Or.inr hthrux⟩)
      · exact hvX
    have hchD := chain_to_restricted_sym g.edges (extractedSet g) l c hch hcX hXl
    exact undirReachB_symm g
      ((undirReachB_iff g _ _).mpr (Or.inr (transGen_of_chain _ l c v hchD hlast)))

/-- Vertices on a chain through the restricted symmetric closure stay in
the extracted set and keep the representative of the chain head. -/
theorem dchain_rep (g : DGraph) {u : Nat} (hu : u ∈ extractedSet g) :
    ∀ (l : List Nat),
      List.Chain (EdgeMem (restrictEdges (symEdges g.edges) (extractedSet g))) u l →
      ∀ x ∈ l, x ∈ extractedSet g ∧ repOf g x = repOf g u := by
  intro l hchain x hx
  have hxX : x ∈ extractedSet g := by
    obtain ⟨y, hy⟩ := chain_elems_target _ l u hchain x hx
    exact (mem_restrictEdges.mp hy).2.2
  have hur : undirReachB g u x = true := by
    have hprop := List.Chain.induction (fun w => undirReachB g u w = true) l hchain
      (fun x0 y0 hxy hp =>
        undirReachB_trans g hp ((undirReachB_iff g _ _).mpr (Or.inr (Relation.TransGen.single hxy))))
      (undirReachB_refl g u)
    exact hprop x hx
  exact ⟨hxX, (repOf_congr g hu hur).symm⟩

/-- C4: after cyclic extraction the residual graph is acyclic, and every
returned sub-graph contains at least one cycle and is weakly connected. -/
theorem claim_C4_cyclic_extraction (g : DGraph) (hwf : WFG g) :
    (¬ ∃ v, Relation.TransGen (EdgeMem (extractCyclicComponents g).1.edges) v v) ∧
    ∀ K ∈ (extractCyclicComponents g).2,
      (∃ v, Relation.TransGen (EdgeMem K.edges) v v) ∧ WeaklyConnected K := by
  constructor
  · rintro ⟨v, hv⟩
    have hedges : (extractCyclicComponents g).1.edges
        = restrictEdges g.edges (g.order.filter fun v => !inExtracted g v) := rfl
    rw [hedges] at hv
    obtain ⟨y, hvy, -⟩ := Relation.TransGen.head'_iff.mp hv
    have hvy2 := mem_restrictEdges.mp hvy
    have hnotext : inExtracted g v = false := by
      have := (List.mem_filter.mp hvy2.2.1).2
      simpa using this
    have hfull : Relation.TransGen (EdgeMem g.edges) v v := by
      refine Relation.TransGen.mono ?_ hv
      intro x y hxy
      exact (mem_restrictEdges.mp hxy).1
    have honc : onCycleB g.edges v = true := transGen_reachB g.edges hfull
    have hext : inExtracted g v = true := by
      unfold inExtracted
      rw [Bool.or_eq_true]
      exact Or.inl honc
    rw [hext] at hnotext
    cases hnotext
  · intro K hK
    rw [show (extractCyclicComponents g).2 = (componentsOf g).map (inducedGraph g) from rfl,
      List.mem_map] at hK
    obtain ⟨Kl, hKl, rfl⟩ := hK
    obtain ⟨r, hrX, hrrep, rfl⟩ := mem_componentsOf.mp hKl
    -- a cyclic-core vertex in this class
    have hrmem : r ∈ (extractedSet g).filter fun u => repOf g u == r :=
      mem_class_iff.mpr ⟨hrX, hrrep⟩
    have hcex : ∃ c, (c ∈ (extractedSet g).filter fun u => repOf g u == r) ∧
        onCycleB g.edges c = true := by
      have hrext := (mem_extractedSet.mp hrX).2
      rw [inExtracted_iff] at hrext
      rcases hrext with h | ⟨c, hcore, hthru⟩
      · exact ⟨r, hrmem, h⟩
      · have hconn := thru_connect g hwf (mem_extractedSet.mp hrX).1 hcore hthru
        have hcX : c ∈ extractedSet g := by
          rw [mem_extractedSet]
          refine ⟨(mem_cyclicCore.mp hcore).1, ?_⟩
          unfold inExtracted
          rw [Bool.or_eq_true]
          exact Or.inl (mem_cyclicCore.mp hcore).2
        have hrepc : repOf g c = r := by
          rw [← repOf_congr g hrX hconn.2]
          exact hrrep
        exact ⟨c, mem_class_iff.mpr ⟨hcX, hrepc⟩, (mem_cyclicCore.mp hcore).2⟩
    obtain ⟨c, hcK, hconc⟩ := hcex
    have hcX : c ∈ extractedSet g := (mem_class_iff.mp hcK).1
    -- the cycle chain through c
    obtain ⟨l, hch, hlast, hlen, hne⟩ :=
      chain_of_reachN g.edges (reachBound g.edges) c c hconc
    -- all cycle vertices are extracted
    have hXl : ∀ x ∈ l, x ∈ extractedSet g := by
      intro x hx
      have honcx : onCycleB g.edges x = true := by
        rcases mem_dropLast_or_last hlast x hx with hxi | rfl
        · obtain ⟨lw, hw1, hw2, _, _, _⟩ := chain_suffix g.edges l c c x hch hlast hxi
          obtain ⟨lp, hp1, hp2, _, _, _⟩ := chain_prefix g.edges l c c x hch hlast hxi
          have h1 : Relation.TransGen (EdgeMem g.edges) x c :=
            transGen_of_chain _ lw x c hw1 hw2
          have h2 : Relation.TransGen (EdgeMem g.edges) c x :=
            transGen_of_chain _ lp c x hp1 hp2
          exact transGen_reachB _ (h1.trans h2)
        · exact hconc
      rw [mem_extractedSet]
      refine ⟨chain_elems_order hwf l c hch x hx, ?_⟩
      unfold inExtracted
      rw [Bool.or_eq_true]
      exact Or.inl honcx
    -- all cycle vertices stay in the class of r
    have hrepl : ∀ x ∈ l, repOf g x = r := by
      intro x hx
      rcases mem_dropLast_or_last hlast x hx with hxi | rfl
      · obtain ⟨lp, hp1, hp2, hp3, hp4, hp5⟩ := chain_prefix g.edges l c c x hch hlast hxi
        have hlpX : ∀ z ∈ lp, z ∈ extractedSet g := by
          intro z hz
          rcases mem_dropLast_or_last hp2 z hz with hzi | rfl
          · exact hXl z ((List.dropLast_sublist l).subset (hp4 z hzi))
          · exact hXl z hx
        have hchD := chain_to_restricted_sym g.edges (extractedSet g) lp c hp1 hcX hlpX
        have hcx : undirReachB g c x = true :=
          (undirReachB_iff g _ _).mpr (Or.inr (transGen_of_chain _ lp c x hchD hp2))
        rw [← repOf_congr g hcX hcx]
        exact (mem_class_iff.mp hcK).2
      · exact (mem_class_iff.mp hcK).2
    have hKall : ∀ x ∈ l, x ∈ (extractedSet g).filter fun u => repOf g u == r :=
      fun x hx => mem_class_iff.mpr ⟨hXl x hx, hrepl x hx⟩
    constructor
    · -- the cycle survives in the induced sub-graph
      have hchK := chain_restrict_dir g.edges
        ((extractedSet g).filter fun u => repOf g u == r) l c hch hcK hKall
      exact ⟨c, transGen_of_chain _ l c c hchK hlast⟩
    · -- weak connectivity of the induced sub-graph
      intro u huord w hword
      have huK : u ∈ (extractedSet g).filter fun u => repOf g u == r := by
        have := (List.mem_filter.mp huord).2
        simpa using this
      have hwK : w ∈ (extractedSet g).filter fun u => repOf g u == r := by
        have := (List.mem_filter.mp hword).2
        simpa using this
      have path_to_r : ∀ {z : Nat}, (z ∈ (extractedSet g).filter fun u => repOf g u == r) →
          Relation.ReflTransGen
            (EdgeMem (symEdges (restrictEdges g.edges
              ((extractedSet g).filter fun u => repOf g u == r)))) z r := by
        intro z hz
        have hzX := (mem_class_iff.mp hz).1
        have hzrep := (mem_class_iff.mp hz).2
        have hspec := repOf_spec g z hzX
        have hur : undirReachB g z r = true := by
          refine undirReachB_symm g ?_
          rw [← hzrep]
          exact hspec.2
        rw [undirReachB_iff] at hur
        rcases hur with rfl | htg
        · exact Relation.ReflTransGen.refl
        · obtain ⟨l0, hch0, hlast0, _, hne0⟩ :=
            chain_of_reachN _ (reachBound _) z r (transGen_reachB _ htg)
          have hX0 := dchain_rep g hzX l0 hch0
          have hK0 : ∀ x ∈ l0, x ∈ (extractedSet g).filter fun u => repOf g u == r := by
            intro x hx
            refine mem_class_iff.mpr ⟨(hX0 x hx).1, ?_⟩
            rw [(hX0 x hx).2, hzrep]
          have hchsym := chain_sym_to_induced g.edges (extractedSet g)
            ((extractedSet g).filter fun u => repOf g u == r) l0 z hch0 hz hK0
          exact (transGen_of_chain _ l0 z r hchsym hlast0).to_reflTransGen
      have hsymm : Symmetric (EdgeMem (symEdges (restrictEdges g.edges
          ((extractedSet g).filter fun u => repOf g u == r)))) := by
        intro x y hxy
        exact mem_symEdges.mpr (mem_symEdges.mp hxy).symm
      exact (path_to_r huK).trans (Relation.ReflTransGen.symmetric hsymm (path_to_r hwK))

/-- Witness instantiating `claim_C4_cyclic_extraction` on a two-vertex
cycle feeding a third vertex. -/
theorem claim_C4_cyclic_extraction_witness :
    WFG ⟨[1, 2, 3], [(1, 2), (2, 1), (2, 3)], []⟩ ∧
    ((¬ ∃ v, Relation.TransGen
        (EdgeMem (extractCyclicComponents ⟨[1, 2, 3], [(1, 2), (2, 1), (2, 3)], []⟩).1.edges)
        v v) ∧
      ∀ K ∈ (extractCyclicComponents ⟨[1, 2, 3], [(1, 2), (2, 1), (2, 3)], []⟩).2,
        (∃ v, Relation.TransGen (EdgeMem K.edges) v v) ∧ WeaklyConnected K) :=
  ⟨⟨by decide, by decide⟩,
    claim_C4_cyclic_extraction ⟨[1, 2, 3], [(1, 2), (2, 1), (2, 3)], []⟩ ⟨by decide, by decide⟩⟩

/-- Witness instantiating `claim_C8_vacant_slot_exclusion` on two slot
arrays differing only in a vacant slot. -/
theorem claim_C8_vacant_slot_exclusion_witness :
    sourcesOf (.consLinked (.mk 0 0 .nil) .nil)
      = sourcesOf (.consVacant (.consLinked (.mk 0 0 .nil) .nil)) ∧
    (sourcesOf (.consLinked (.mk 0 0 .nil) .nil)
        = (allSlots (.consLinked (.mk 0 0 .nil) .nil)).filterMap id ∧
      equalsB (.mk 3 4 (.consLinked (.mk 0 0 .nil) .nil)) (.mk 3 4 .nil)
        = equalsB (.mk 3 4 (.consVacant (.consLinked (.mk 0 0 .nil) .nil))) (.mk 3 4 .nil) ∧
      equalsB (.mk 3 4 .nil) (.mk 3 4 (.consLinked (.mk 0 0 .nil) .nil))
        = equalsB (.mk 3 4 .nil) (.mk 3 4 (.consVacant (.consLinked (.mk 0 0 .nil) .nil))) ∧
      hashT (.mk 3 4 (.consLinked (.mk 0 0 .nil) .nil))
        = hashT (.mk 3 4 (.consVacant (.consLinked (.mk 0 0 .nil) .nil)))) :=
  ⟨by simp [sourcesOf],
    claim_C8_vacant_slot_exclusion 3 4 _ _ _ (by simp [sourcesOf])⟩

end V3Dfg
